import Mathlib

/-!
# gms: delta synchronisation of a fixed eight-leaf document

A shallow embedding of package `gms` (`src/gms/gms.go`): the document model, the
diff/patch engine (`CreatePatch`, `ApplyPatch`), the version tag codec
(`GenerateETag`, `ParseETag`) and the bounded history (`ThsObjs`); and of the request
handlers of `deltaserver` (`src/deltaserver/deltaserver.go`), `gmsetagserver`
(`src/gmsetagserver/gmsserver.go`) and `gmsserver` (`src/gmsserver/gmsserver.go`).

Conventions of the embedding
* `int64` values are `Int`; where the source can leave the `int64` range the
  wrap-around is written explicitly with `wrapInt64`.
* Go strings are `String`.
* A Go `(T, error)` result is a pair `T × Option E`; a run-time panic is `none`
  of an `Option`.
* The mutexes of `ThsObj`/`ThsObjs` only serialise whole calls, so each method is
  a function on the protected state.
-/

namespace gms

/-! ## Document model -/

/-- Go `type Bar struct { BazA int64; BazB int64 }`. -/
structure Bar where
  BazA : Int
  BazB : Int
  deriving DecidableEq

/-- Go `type Foo struct { BarA Bar; BarB Bar }`. -/
structure Foo where
  BarA : Bar
  BarB : Bar
  deriving DecidableEq

/-- Go `type Obj struct { FooA Foo; FooB Foo }`. -/
structure Obj where
  FooA : Foo
  FooB : Foo
  deriving DecidableEq

/-- The Go zero value `Obj{}`: all eight leaves are 0. -/
def Obj.zero : Obj := ⟨⟨⟨0, 0⟩, ⟨0, 0⟩⟩, ⟨⟨0, 0⟩, ⟨0, 0⟩⟩⟩

/-- The values of type `int64`. -/
def isInt64 (v : Int) : Prop := -2 ^ 63 ≤ v ∧ v < 2 ^ 63

instance (v : Int) : Decidable (isInt64 v) := by
  unfold isInt64; exact inferInstance

/-- Two's complement wrap-around of an integer into the `int64` range. -/
def wrapInt64 (v : Int) : Int := (v + 2 ^ 63) % 2 ^ 64 - 2 ^ 63

/-! ## Dynamic values carried by a patch operation -/

/-- A Go `float64`. A finite value is `mant * 2 ^ exp`; every finite `float64` has
this form with `|mant| < 2 ^ 53` and `-1074 ≤ exp ≤ 971` (see `Float64.wellFormed`).
The sign of zero is not recorded: the program only converts a `float64` to `int64`,
which maps both zeros to 0. -/
inductive Float64 where
  | finite (mant : Int) (exp : Int)
  | inf (negative : Bool)
  | nan
  deriving DecidableEq

/-- The representations that denote an actual IEEE 754 binary64 value. -/
def Float64.wellFormed : Float64 → Prop
  | .finite m e => m.natAbs < 2 ^ 53 ∧ -1074 ≤ e ∧ e ≤ 971
  | .inf _ => True
  | .nan => True

instance (f : Float64) : Decidable f.wellFormed := by
  cases f <;> unfold Float64.wellFormed <;> exact inferInstance

/-- The integer part of a finite `float64`, fraction discarded (truncation towards
zero); `none` for NaN and the infinities. -/
def Float64.trunc : Float64 → Option Int
  | .finite m e => if 0 ≤ e then some (m * 2 ^ e.toNat) else some (Int.tdiv m (2 ^ (-e).toNat))
  | .inf _ => none
  | .nan => none

/-- The Go conversion `int64(val)` of a `float64`: the fraction is discarded. When the
truncated value is not an `int64` (or `val` is NaN or infinite) the Go specification
leaves the result implementation-dependent; `indef` is the target platform's choice
(for instance always `-2 ^ 63` on amd64), brought into the `int64` range. -/
def int64OfFloat64 (indef : Float64 → Int) (val : Float64) : Int :=
  match val.trunc with
  | some t => if isInt64 t then t else wrapInt64 (indef val)
  | none => wrapInt64 (indef val)

/-- The dynamic value held by the `interface{}` field `JSONPatchOp.Value`:
`int64` is what `CreatePatch` stores; `null`, `bool`, `float64`, `string` and
`composite` (a `[]interface{}` or `map[string]interface{}`) are what decoding a
JSON document into an `interface{}` produces. -/
inductive Value where
  | null
  | bool (b : Bool)
  | float64 (f : Float64)
  | string (s : String)
  | composite
  | int64 (v : Int)
  deriving DecidableEq

/-- Go `const JSONPatchOpReplace = "replace"`. -/
def JSONPatchOpReplace : String := "replace"

/-- Go `type JSONPatchOp struct { Op string; Path string; Value interface{} }`. -/
structure JSONPatchOp where
  Op : String
  Path : String
  Value : Value
  deriving DecidableEq

/-! ## CreatePatch -/

/-- Go `CreatePatch(a, b Obj) []JSONPatchOp`: the eight comparisons in source order,
each appending one operation to `patches` when the leaves differ. -/
def CreatePatch (a b : Obj) : List JSONPatchOp :=
  let patches : List JSONPatchOp := []
  let patches := if a.FooA.BarA.BazA ≠ b.FooA.BarA.BazA then
    patches ++ [⟨JSONPatchOpReplace, "/foo-a/bar-a/baz-a", .int64 b.FooA.BarA.BazA⟩] else patches
  let patches := if a.FooA.BarA.BazB ≠ b.FooA.BarA.BazB then
    patches ++ [⟨JSONPatchOpReplace, "/foo-a/bar-a/baz-b", .int64 b.FooA.BarA.BazB⟩] else patches
  let patches := if a.FooA.BarB.BazA ≠ b.FooA.BarB.BazA then
    patches ++ [⟨JSONPatchOpReplace, "/foo-a/bar-b/baz-a", .int64 b.FooA.BarB.BazA⟩] else patches
  let patches := if a.FooA.BarB.BazB ≠ b.FooA.BarB.BazB then
    patches ++ [⟨JSONPatchOpReplace, "/foo-a/bar-b/baz-b", .int64 b.FooA.BarB.BazB⟩] else patches
  let patches := if a.FooB.BarA.BazA ≠ b.FooB.BarA.BazA then
    patches ++ [⟨JSONPatchOpReplace, "/foo-b/bar-a/baz-a", .int64 b.FooB.BarA.BazA⟩] else patches
  let patches := if a.FooB.BarA.BazB ≠ b.FooB.BarA.BazB then
    patches ++ [⟨JSONPatchOpReplace, "/foo-b/bar-a/baz-b", .int64 b.FooB.BarA.BazB⟩] else patches
  let patches := if a.FooB.BarB.BazA ≠ b.FooB.BarB.BazA then
    patches ++ [⟨JSONPatchOpReplace, "/foo-b/bar-b/baz-a", .int64 b.FooB.BarB.BazA⟩] else patches
  let patches := if a.FooB.BarB.BazB ≠ b.FooB.BarB.BazB then
    patches ++ [⟨JSONPatchOpReplace, "/foo-b/bar-b/baz-b", .int64 b.FooB.BarB.BazB⟩] else patches
  patches

/-! ## ApplyPatch -/

/-- The pieces of a character sequence between occurrences of `sep`: one more piece
than there are separators, so the empty sequence gives one empty piece. -/
def splitChars (sep : Char) : List Char → List (List Char)
  | [] => [[]]
  | c :: cs =>
    if c = sep then [] :: splitChars sep cs
    else
      match splitChars sep cs with
      | [] => [[c]]
      | piece :: pieces => (c :: piece) :: pieces

/-- Go `strings.Split(s, "/")`. -/
def Split (s : String) : List String := (splitChars '/' s.data).map String.mk

/-- The three kinds of error `ApplyPatch` reports, with the data its message shows. -/
inductive PatchError where
  | unsupportedValue (path : String) (value : Value)
  | expected4Parts (path : String) (parts : List String)
  | unsupportedPart (part : String) (path : String)
  deriving DecidableEq

/-- The body of the loop of `ApplyPatch` for one operation `patch`, on the local copy
`obj`: `Except.ok` is the updated `obj` with which the loop continues, `Except.error`
is the error of an early `return Obj{}, err`. -/
def applyOp (indef : Float64 → Int) (obj : Obj) (patch : JSONPatchOp) : Except PatchError Obj :=
  match patch.Value with
  | .float64 val =>
    match Split patch.Path with
    | [_, p0, p1, p2] =>
      if p0 = "foo-a" then
        if p1 = "bar-a" then
          if p2 = "baz-a" then
            .ok { obj with FooA.BarA.BazA := int64OfFloat64 indef val }
          else if p2 = "baz-b" then
            .ok { obj with FooA.BarA.BazB := int64OfFloat64 indef val }
          else .error (.unsupportedPart p2 patch.Path)
        else if p1 = "bar-b" then
          if p2 = "baz-a" then
            .ok { obj with FooA.BarB.BazA := int64OfFloat64 indef val }
          else if p2 = "baz-b" then
            .ok { obj with FooA.BarB.BazB := int64OfFloat64 indef val }
          else .error (.unsupportedPart p2 patch.Path)
        else .error (.unsupportedPart p1 patch.Path)
      else if p0 = "foo-b" then
        if p1 = "bar-a" then
          if p2 = "baz-a" then
            .ok { obj with FooB.BarA.BazA := int64OfFloat64 indef val }
          else if p2 = "baz-b" then
            .ok { obj with FooB.BarA.BazB := int64OfFloat64 indef val }
          else .error (.unsupportedPart p2 patch.Path)
        else if p1 = "bar-b" then
          if p2 = "baz-a" then
            .ok { obj with FooB.BarB.BazA := int64OfFloat64 indef val }
          else if p2 = "baz-b" then
            .ok { obj with FooB.BarB.BazB := int64OfFloat64 indef val }
          else .error (.unsupportedPart p2 patch.Path)
        else .error (.unsupportedPart p1 patch.Path)
      else .error (.unsupportedPart p0 patch.Path)
    | path => .error (.expected4Parts patch.Path path)
  | v => .error (.unsupportedValue patch.Path v)

/-- Go `ApplyPatch(obj Obj, patches []JSONPatchOp) (Obj, error)`: the loop over
`patches`; an error returns `Obj{}` with it, the end of the loop returns the updated
copy and `nil`. The parameter `obj` is passed by value, so the caller's document is
not touched. -/
def ApplyPatch (indef : Float64 → Int) (obj : Obj) : List JSONPatchOp → Obj × Option PatchError
  | [] => (obj, none)
  | patch :: patches =>
    match applyOp indef obj patch with
    | .ok obj => ApplyPatch indef obj patches
    | .error err => (Obj.zero, some err)

/-- The amd64 result of converting an unrepresentable `float64`: the "integer
indefinite" value `-2 ^ 63`. -/
def amd64 : Float64 → Int := fun _ => -2 ^ 63

/-! ## Patches on the wire

The servers send `json.Marshal(patch)` and the clients decode the body into a
`[]JSONPatchOp` (`PollServer`); the `Value` field has type `interface{}`, so every
JSON number arrives as a `float64`. -/

/-- The `float64` nearest to an integer (round to nearest, ties to even, 53 bits of
precision), as the JSON decoder produces it from the decimal text of an `int64`:
an integer of magnitude below `2 ^ 53` is its own mantissa; otherwise the magnitude
`n`, of `k + 53` binary digits, is cut to its leading 53 binary digits `q`, rounded
by the `k` digits `r` cut off, and renormalised when the rounding carries to
`2 ^ 53`. Integers of magnitude at most `2 ^ 53` are represented exactly. -/
def float64OfInt (v : Int) : Float64 :=
  let n := v.natAbs
  if n < 2 ^ 53 then .finite v 0
  else
    let k := (Nat.toDigits 2 n).length - 53
    let q := n / 2 ^ k
    let r := n % 2 ^ k
    let half := 2 ^ (k - 1)
    let q := if r > half ∨ (r = half ∧ q % 2 = 1) then q + 1 else q
    let k := if q = 2 ^ 53 then k + 1 else k
    let q := if q = 2 ^ 53 then 2 ^ 52 else q
    .finite (if v < 0 then -(q : Int) else q) k

/-- What a patch value becomes when it is marshalled to JSON and decoded into an
`interface{}`; `none` when `json.Marshal` refuses the value (NaN and the infinities
have no JSON text). -/
def Value.overJSON : Value → Option Value
  | .int64 v => some (.float64 (float64OfInt v))
  | .float64 (.finite m e) => some (.float64 (.finite m e))
  | .float64 _ => none
  | v => some v

/-- A patch marshalled by the server and decoded by the client. -/
def overJSON : List JSONPatchOp → Option (List JSONPatchOp)
  | [] => some []
  | op :: ops =>
    match op.Value.overJSON, overJSON ops with
    | some v, some rest => some ({ op with Value := v } :: rest)
    | _, _ => none

/-! ## The canonical walk over the eight leaves (the diff as the specification words it) -/

/-- The eight leaves in canonical order (branch A before B, sub-branch A before B,
leaf A before B), each with its path and its accessor. -/
def leaves : List (String × (Obj → Int)) :=
  [("/foo-a/bar-a/baz-a", fun o => o.FooA.BarA.BazA),
   ("/foo-a/bar-a/baz-b", fun o => o.FooA.BarA.BazB),
   ("/foo-a/bar-b/baz-a", fun o => o.FooA.BarB.BazA),
   ("/foo-a/bar-b/baz-b", fun o => o.FooA.BarB.BazB),
   ("/foo-b/bar-a/baz-a", fun o => o.FooB.BarA.BazA),
   ("/foo-b/bar-a/baz-b", fun o => o.FooB.BarA.BazB),
   ("/foo-b/bar-b/baz-a", fun o => o.FooB.BarB.BazA),
   ("/foo-b/bar-b/baz-b", fun o => o.FooB.BarB.BazB)]

/-- The eight leaf paths in canonical order. -/
def leafPaths : List String := leaves.map (fun l => l.1)

/-- The diff as specified: walk the leaves in canonical order, keep those where `a`
and `b` differ, and emit for each a `replace` of that path carrying the value of `b`. -/
def canonicalDiff (a b : Obj) : List JSONPatchOp :=
  (leaves.filter (fun l => l.2 a ≠ l.2 b)).map (fun l => ⟨"replace", l.1, .int64 (l.2 b)⟩)

/-! ## Version stamps and version tags -/

/-- The instant of a Go `time.Time`: seconds since the Unix epoch and nanoseconds
within the second, `0 ≤ nsec < 10 ^ 9`. The location and the monotonic clock reading
of a `time.Time` are not part of the instant and are not recorded. -/
structure Time where
  sec : Int
  nsec : Int
  deriving DecidableEq

/-- The nanosecond field of a `time.Time` is always within the second. -/
def Time.wellFormed (t : Time) : Prop := 0 ≤ t.nsec ∧ t.nsec < 10 ^ 9

instance (t : Time) : Decidable t.wellFormed := by
  unfold Time.wellFormed; exact inferInstance

/-- The zero `time.Time{}`: January 1, year 1, 00:00:00 UTC, which is 62135596800
seconds before the Unix epoch. -/
def Time.zero : Time := ⟨-62135596800, 0⟩

/-- Go `t.UnixNano()`: `unixSec*1e9 + nsec` computed in `int64`, so it wraps around
when the instant is outside the years 1678 to 2262. -/
def Time.UnixNano (t : Time) : Int := wrapInt64 (t.sec * 10 ^ 9 + t.nsec)

/-- Go `time.Unix(sec, nsec)`: a `nsec` outside `[0, 1e9)` is carried into `sec`
(`/` on `int64` truncates towards zero). -/
def Time.Unix (sec nsec : Int) : Time :=
  if nsec < 0 ∨ nsec ≥ 10 ^ 9 then
    let n := Int.tdiv nsec (10 ^ 9)
    let sec := sec + n
    let nsec := nsec - n * 10 ^ 9
    if nsec < 0 then ⟨sec - 1, nsec + 10 ^ 9⟩ else ⟨sec, nsec⟩
  else ⟨sec, nsec⟩

/-- Go `strconv.FormatInt(i, 10)`: the decimal digits of `i`, after a `-` when `i`
is negative. -/
def FormatInt (i : Int) : String :=
  if i < 0 then String.mk ('-' :: Nat.toDigits 10 i.natAbs) else String.mk (Nat.toDigits 10 i.natAbs)

/-- The value of a decimal digit, `none` for any other character. -/
def digitVal (c : Char) : Option Nat :=
  if '0' ≤ c ∧ c ≤ '9' then some (c.toNat - '0'.toNat) else none

/-- The number written by a sequence of decimal digits after the digits read so far
amount to `acc`; `none` when a character is not a decimal digit. -/
def parseDigits (acc : Nat) : List Char → Option Nat
  | [] => some acc
  | c :: cs =>
    match digitVal c with
    | some d => parseDigits (acc * 10 + d) cs
    | none => none

/-- Go `strconv.ParseInt(s, 10, 64)`: an optional sign followed by at least one
decimal digit and nothing else, denoting a value in the `int64` range. `none` stands
for the returned `*NumError` (syntax or range); its kind is not distinguished. -/
def ParseInt (s : String) : Option Int :=
  match s.data with
  | [] => none
  | c :: cs =>
    let neg := c = '-'
    let digits := if c = '+' ∨ c = '-' then cs else c :: cs
    if digits = [] then none
    else
      match parseDigits 0 digits with
      | none => none
      | some un =>
        if ¬neg ∧ un ≥ 2 ^ 63 then none
        else if neg ∧ un > 2 ^ 63 then none
        else some (if neg then -(un : Int) else un)

/-- Go `GenerateETag(t time.Time) string`. -/
def GenerateETag (t : Time) : String := FormatInt t.UnixNano

/-- Go `ParseETag(eTag string) (time.Time, error)`; the error is that of `ParseInt`,
returned together with the zero time. -/
def ParseETag (eTag : String) : Time × Option Unit :=
  match ParseInt eTag with
  | none => (Time.zero, some ())
  | some i => (Time.Unix 0 i, none)

/-! ## The bounded history -/

/-- Go `type ObjTime struct { T time.Time; O Obj }`. -/
structure ObjTime where
  T : Time
  O : Obj
  deriving DecidableEq

/-- The state of a Go `ThsObjs`: the slice `o` (newest first) and `max`. -/
structure ThsObjs where
  o : List ObjTime
  max : Int
  deriving DecidableEq

/-- Go `NewThsObjs(maxHistory int) *ThsObjs`. -/
def NewThsObjs (maxHistory : Int) : ThsObjs := ⟨[], maxHistory⟩

/-- Go `(o *ThsObjs) Add(newO Obj)`; `now` is the value of `time.Now()` read by the
call. The new entry is put in front; when the length exceeds `max` the slice
expression `o.o[:o.max]` keeps the first `max` entries, and panics (`none`) when
`max` is negative. -/
def ThsObjs.Add (r : ThsObjs) (now : Time) (newO : Obj) : Option ThsObjs :=
  let o := (⟨now, newO⟩ : ObjTime) :: r.o
  if (o.length : Int) > r.max then
    if 0 ≤ r.max then some { r with o := o.take r.max.toNat } else none
  else some { r with o := o }

/-- Successive calls of `Add`, one for each `(now, document)` of the list, in order. -/
def ThsObjs.AddAll (r : ThsObjs) : List (Time × Obj) → Option ThsObjs
  | [] => some r
  | (now, newO) :: rest =>
    match r.Add now newO with
    | some r => r.AddAll rest
    | none => none

/-- The document with leaf `/foo-a/bar-a/baz-a` equal to 1 and every other leaf 0. -/
def Obj.one : Obj := ⟨⟨⟨1, 0⟩, ⟨0, 0⟩⟩, ⟨⟨0, 0⟩, ⟨0, 0⟩⟩⟩

/-! ## Comparing stamps and querying the history -/

/-- Go `t.After(u)`, on the instants: `ts > us || ts == us && t.nsec() > u.nsec()`.
(Every comparison the handlers make has on one side a time decoded from a header,
which carries no monotonic clock reading, so Go compares the instants.) -/
def Time.After (t u : Time) : Bool :=
  decide (t.sec > u.sec ∨ (t.sec = u.sec ∧ t.nsec > u.nsec))

/-- Go `t.Before(u)`, on the instants: `ts < us || ts == us && t.nsec() < u.nsec()`. -/
def Time.Before (t u : Time) : Bool :=
  decide (t.sec < u.sec ∨ (t.sec = u.sec ∧ t.nsec < u.nsec))

/-- The Go zero value `ObjTime{}`: the zero time and the zero document. -/
def ObjTime.zero : ObjTime := ⟨Time.zero, Obj.zero⟩

/-- The `for _, o := range os` loop of `GetNotNewerThan`: entries after `t` are skipped,
the first entry that is not after `t` is returned; `none` when the loop ends without
returning. -/
def GetNotNewerThan.loop (t : Time) : List ObjTime → Option ObjTime
  | [] => none
  | o :: os => if o.T.After t then GetNotNewerThan.loop t os else some o

/-- Go `(o *ThsObjs) GetNotNewerThan(t time.Time) ObjTime`. -/
def ThsObjs.GetNotNewerThan (r : ThsObjs) (t : Time) : ObjTime :=
  let os := r.o
  match GetNotNewerThan.loop t os with
  | some o => o
  | none =>
    if os.length = 0 then ObjTime.zero
    else os.getD (os.length - 1) ObjTime.zero

/-! ## Candidate tags of the If-None-Match header (deltaserver) -/

/-- Go `strings.Split(s, ",")`. -/
def SplitComma (s : String) : List String := (splitChars ',' s.data).map String.mk

/-- Go `len(s)`: the number of bytes of the UTF-8 text `s`. -/
def len (s : String) : Nat := (s.data.map Char.utf8Size).sum

/-- The Go slice expression `s[1 : len(s)-1]`, which drops the first and the last byte.
* `none`: the bounds are out of range and the expression panics (`len(s) < 2`).
* `some none`: the first or the last character of `s` takes several bytes and the
  slice cuts through it, leaving bytes that are not UTF-8 text (they include a byte
  `≥ 0x80`, which is no sign and no digit for `strconv.ParseInt`).
* `some (some r)`: the text `r` between the first and the last character; for a
  single character of two bytes that is the empty text. -/
def sliceEnds (s : String) : Option (Option String) :=
  match s.data with
  | [] => none
  | [c] =>
    if c.utf8Size = 1 then none
    else if c.utf8Size = 2 then some (some "")
    else some none
  | c :: d :: cs =>
    if c.utf8Size = 1 ∧ ((d :: cs).getLastD d).utf8Size = 1 then
      some (some (String.mk (d :: cs).dropLast))
    else some none

/-- A Go `map[string]time.Time`, as the list of its entries; the keys are distinct. -/
abbrev ETagMap := List (String × Time)

/-- Go `ts[etag] = etagT`: the entry of key `etag` is replaced or added. -/
def ETagMap.set (ts : ETagMap) (etag : String) (etagT : Time) : ETagMap :=
  match ts with
  | [] => [(etag, etagT)]
  | (k, v) :: rest => if k = etag then (etag, etagT) :: rest else (k, v) :: ETagMap.set rest etag etagT

/-- The body of the loop of `ETagTimes` for one candidate: the entry it stores, or
`none` when it `continue`s (candidate shorter than two bytes, or `ParseETag` fails
on the candidate without its first and last byte). -/
def ETagTimes.entry (etag : String) : Option (String × Time) :=
  if len etag < 2 then none
  else
    match sliceEnds etag with
    | some (some etag) =>
      match ParseETag etag with
      | (etagT, none) => some (etag, etagT)
      | (_, some _) => none
    | _ => none

/-- Go `ETagTimes(etags []string) map[string]time.Time`. -/
def ETagTimes (etags : List String) : ETagMap :=
  etags.foldl
    (fun ts etag =>
      match ETagTimes.entry etag with
      | some (etag, etagT) => ts.set etag etagT
      | none => ts)
    []

/-- The `for etag, t := range etags` loop of `LatestETag` over the entries in the
order in which the runtime yields them, from the current values of `latestETag`,
`latestTime`, `found`. -/
def LatestETag.loop : String × Time × Bool → List (String × Time) → String × Time × Bool
  | acc, [] => acc
  | (latestETag, latestTime, found), (etag, t) :: rest =>
    if t.After latestTime then LatestETag.loop (etag, t, true) rest
    else LatestETag.loop (latestETag, latestTime, found) rest

/-- Go `LatestETag(etags map[string]time.Time) (string, time.Time, bool)`. The order in
which `range` yields the entries of a map is not specified; `iter` is the sequence of
the entries as the runtime yields them (a permutation of the map's entries). -/
def LatestETag (iter : List (String × Time)) : String × Time × Bool :=
  LatestETag.loop ("", Time.zero, false) iter

/-- Go `StrSliceToMap(ss []string) map[string]struct{}`, as the membership test of the
resulting set. -/
def StrSliceToMap (ss : List String) : String → Bool := fun s => decide (s ∈ ss)

/-! ## Requests and responses -/

/-- Go `const HeaderGetModifiedSince`. -/
def HeaderGetModifiedSince : String := "Get-Modified-Since"
/-- Go `const HeaderIfNoneMatch`. -/
def HeaderIfNoneMatch : String := "If-None-Match"
/-- Go `const HeaderAcceptInstanceManipulation`. -/
def HeaderAcceptInstanceManipulation : String := "A-IM"
/-- Go `const HeaderInstanceManipulation`. -/
def HeaderInstanceManipulation : String := "IM"
/-- Go `const HeaderContentType`. -/
def HeaderContentType : String := "Content-Type"
/-- Go `const HeaderETag`. -/
def HeaderETag : String := "ETag"
/-- Go `const HeaderDeltaBase`. -/
def HeaderDeltaBase : String := "Delta-Base"
/-- Go `const InstanceManipulationValueJSONPatch`. -/
def InstanceManipulationValueJSONPatch : String := "jsonpatch"
/-- Go `const MimeTypeJSONPatch`. -/
def MimeTypeJSONPatch : String := "application/json-patch+json"
/-- Go `const MimeTypeJSON`. -/
def MimeTypeJSON : String := "application/json"
/-- Go `http.StatusOK`. -/
def StatusOK : Nat := 200
/-- Go `http.StatusIMUsed`. -/
def StatusIMUsed : Nat := 226
/-- Go `http.StatusNotModified`. -/
def StatusNotModified : Nat := 304

/-- An `http.Header`, as its list of (key, value) entries, one value for each key.
Keys are the names the source writes; the canonical spelling `net/http` gives a key
is the same for the reader and the writer of a header and is not modelled. -/
abbrev Header := List (String × String)

/-- Go `h.Get(key)`: the value of the key, or `""` when the header has no such key. -/
def Header.Get (h : Header) (key : String) : String :=
  match h.lookup key with
  | some value => value
  | none => ""

/-- Go `h.Set(key, value)`: the entry of the key is replaced. -/
def Header.Set (h : Header) (key value : String) : Header :=
  (key, value) :: h.filter (fun e => e.1 ≠ key)

/-- The bytes a handler writes as response body: the result of `json.Marshal` on a
document or on a patch, each represented by the value that was marshalled.
(`json.Marshal` does not fail on an `Obj` nor on the result of `CreatePatch`, so the
`err != nil` branches after it are never taken and are left out of the handlers.) -/
inductive Body where
  | document (o : Obj)
  | patch (p : List JSONPatchOp)
  deriving DecidableEq

/-- The state of an `http.ResponseWriter`: the header map `w.Header()`, the status
code once it has been written together with the headers `sent` with it, and the
bodies written so far, in order. -/
structure ResponseWriter where
  header : Header
  status : Option Nat
  sent : Header
  body : List Body
  deriving DecidableEq

/-- The `http.ResponseWriter` a handler is called with. -/
def ResponseWriter.new : ResponseWriter := ⟨[], none, [], []⟩

/-- Go `w.Header().Set(key, value)`. -/
def ResponseWriter.Set (w : ResponseWriter) (key value : String) : ResponseWriter :=
  { w with header := w.header.Set key value }

/-- Go `w.WriteHeader(code)`: sends the status code with the headers set so far; a
second call changes nothing. -/
def ResponseWriter.WriteHeader (w : ResponseWriter) (code : Nat) : ResponseWriter :=
  match w.status with
  | some _ => w
  | none => { w with status := some code, sent := w.header }

/-- Go `w.Write(bts)`: writes the header with `http.StatusOK` when it has not been
written yet, then the body. -/
def ResponseWriter.Write (w : ResponseWriter) (bts : Body) : ResponseWriter :=
  let w := w.WriteHeader StatusOK
  { w with body := w.body ++ [bts] }

/-! ## The handler of deltaserver (ETag / A-IM flavour)

`obj` is the value `obj.Get()` returns and `objHist` the state of the history during
the call: the handler is run against one state of the store and of the history. -/

namespace deltaserver

/-- The first statements of the handler: `etag, etagTime, etagFound`, taken from the
latest valid candidate of `If-None-Match` when `A-IM` lists `jsonpatch`. `order` is
the order in which the runtime iterates over a map (see `LatestETag`). -/
def baseline (order : ETagMap → List (String × Time)) (req : Header) : String × Time × Bool :=
  let aimVals := StrSliceToMap (SplitComma (req.Get HeaderAcceptInstanceManipulation))
  if aimVals InstanceManipulationValueJSONPatch then
    LatestETag (order (ETagTimes (SplitComma (req.Get HeaderIfNoneMatch))))
  else ("", Time.zero, false)

/-- The function returned by Go `GetHandler` of `deltaserver`, on the response writer
`w` and the request header `req`. -/
def GetHandler (order : ETagMap → List (String × Time)) (obj : ObjTime) (objHist : ThsObjs)
    (w : ResponseWriter) (req : Header) : ResponseWriter :=
  let etag := (baseline order req).1
  let etagTime := (baseline order req).2.1
  let etagFound := (baseline order req).2.2
  if !etagFound then
    let latestObj := obj
    let bts := Body.document latestObj.O
    let w := w.Set HeaderETag (GenerateETag latestObj.T)
    let w := w.Set HeaderContentType MimeTypeJSON
    w.Write bts
  else
    let latestObj := obj
    if !latestObj.T.After etagTime then
      w.WriteHeader StatusNotModified
    else
      let notNewerThanObj := objHist.GetNotNewerThan etagTime
      if notNewerThanObj.T.After etagTime then
        let latestObj := obj
        let bts := Body.document latestObj.O
        let w := w.Set HeaderETag (GenerateETag latestObj.T)
        let w := w.Set HeaderContentType MimeTypeJSON
        w.Write bts
      else
        let patch := CreatePatch notNewerThanObj.O latestObj.O
        let bts := Body.patch patch
        let w := w.Set HeaderETag (GenerateETag latestObj.T)
        let w := w.Set HeaderContentType MimeTypeJSONPatch
        let w := w.Set HeaderDeltaBase ("\"" ++ etag ++ "\"")
        let w := w.Set HeaderInstanceManipulation InstanceManipulationValueJSONPatch
        let w := w.WriteHeader StatusIMUsed
        w.Write bts

end deltaserver

/-! ## The handler of gmsetagserver (single-header flavour)

`ParseHTTPDate` stands for `groveweb.ParseHTTPDate` of the Apache Traffic Control
library, which is not part of this repository: `none` is its result `ok = false`. -/

namespace gmsetagserver

/-- The first statements of the handler, which compute `gmsTime` from the header
`Get-Modified-Since`: `some (some t)` is a claimed baseline `t`, `some none` is
`gmsTime == nil`, and `none` is the run-time panic of `gmsHeader[1 : len(gmsHeader)-1]`
when the bounds are out of range. The tests `gmsHeader[0] == '"'` and
`gmsHeader[len(gmsHeader)-1] == '"'` compare a byte with an ASCII character, which
holds exactly when the first (last) character of the text is that character. -/
def gmsTime (ParseHTTPDate : String → Option Time) (req : Header) : Option (Option Time) :=
  let gmsHeader := req.Get HeaderGetModifiedSince
  if gmsHeader ≠ "" then
    let isETag := gmsHeader.data.head? = some '"' ∧ gmsHeader.data.getLast? = some '"'
    if isETag then
      match sliceEnds gmsHeader with
      | none => none
      | some none => some none
      | some (some eTag) =>
        match ParseETag eTag with
        | (gmsHeaderTime, none) => some (some gmsHeaderTime)
        | (_, some _) => some none
    else
      match ParseHTTPDate gmsHeader with
      | some gmsHeaderTime => some (some gmsHeaderTime)
      | none => some none
  else some none

/-- The function returned by Go `GetHandler` of `gmsetagserver`; `none` when the
handler panics. -/
def GetHandler (ParseHTTPDate : String → Option Time) (obj : ObjTime) (objHist : ThsObjs)
    (w : ResponseWriter) (req : Header) : Option ResponseWriter :=
  match gmsTime ParseHTTPDate req with
  | none => none
  | some none =>
    let latestObj := obj
    let bts := Body.document latestObj.O
    let w := w.Set "ETag" (GenerateETag latestObj.T)
    let w := w.Set "Content-Type" MimeTypeJSON
    some (w.Write bts)
  | some (some gmsTime) =>
    let latestObj := obj
    if latestObj.T.Before gmsTime then
      let bts := Body.patch []
      let w := w.Set "Content-Type" MimeTypeJSONPatch
      let w := w.Set "ETag" (GenerateETag latestObj.T)
      some (w.Write bts)
    else
      let notNewerThanObj := objHist.GetNotNewerThan gmsTime
      if notNewerThanObj.T.After gmsTime then
        let latestObj := obj
        let bts := Body.document latestObj.O
        let w := w.Set "ETag" (GenerateETag latestObj.T)
        let w := w.Set "Content-Type" MimeTypeJSON
        some (w.Write bts)
      else
        let patch := CreatePatch notNewerThanObj.O latestObj.O
        let bts := Body.patch patch
        let w := w.Set "ETag" (GenerateETag latestObj.T)
        let w := w.Set "Content-Type" MimeTypeJSONPatch
        some (w.Write bts)

end gmsetagserver

/-! ## The handler of gmsserver (single-header flavour, HTTP-date only) -/

namespace gmsserver

/-- The first statements of the handler, which compute `gmsTime` from the header
`Get-Modified-Since`; `none` is `gmsTime == nil`. -/
def gmsTime (ParseHTTPDate : String → Option Time) (req : Header) : Option Time :=
  let gmsHeader := req.Get HeaderGetModifiedSince
  if gmsHeader ≠ "" then
    match ParseHTTPDate gmsHeader with
    | some gmsHeaderTime => some gmsHeaderTime
    | none => none
  else none

/-- The function returned by Go `GetHandler` of `gmsserver`. The branch that writes the
empty patch has no `return`: the handler goes on with the history lookup on the same
response writer. -/
def GetHandler (ParseHTTPDate : String → Option Time) (obj : ObjTime) (objHist : ThsObjs)
    (w : ResponseWriter) (req : Header) : ResponseWriter :=
  match gmsTime ParseHTTPDate req with
  | some gmsTime =>
    let w :=
      if obj.T.Before gmsTime then
        let bts := Body.patch []
        let w := w.Set "Content-Type" MimeTypeJSONPatch
        w.Write bts
      else w
    let o := objHist.GetNotNewerThan gmsTime
    if o.T.After gmsTime then
      let bts := Body.document obj.O
      let w := w.Set "Content-Type" MimeTypeJSON
      w.Write bts
    else
      let patch := CreatePatch o.O obj.O
      let bts := Body.patch patch
      let w := w.Set "Content-Type" MimeTypeJSONPatch
      w.Write bts
  | none =>
    let w := w.Set "Content-Type" MimeTypeJSON
    let bts := Body.document obj.O
    w.Write bts

end gmsserver

/-! ## The three responses, as the specification words them -/

/-- FULL: the serialized current document with the JSON content type and the Version
Tag of the current stamp. -/
def isFULL (w : ResponseWriter) (current : ObjTime) : Prop :=
  w.status = some StatusOK ∧ w.body = [Body.document current.O]
    ∧ w.sent.Get HeaderContentType = MimeTypeJSON
    ∧ w.sent.Get HeaderETag = GenerateETag current.T

/-- PATCH: the serialized diff from the baseline document to the current document
with the patch content type and the Version Tag of the current stamp, sent with the
status of the protocol flavour. -/
def isPATCH (w : ResponseWriter) (status : Nat) (baseline current : ObjTime) : Prop :=
  w.status = some status ∧ w.body = [Body.patch (CreatePatch baseline.O current.O)]
    ∧ w.sent.Get HeaderContentType = MimeTypeJSONPatch
    ∧ w.sent.Get HeaderETag = GenerateETag current.T

/-- UNCHANGED in the ETag/A-IM flavour: 304 Not Modified and no body. -/
def isNotModified (w : ResponseWriter) : Prop :=
  w.status = some StatusNotModified ∧ w.body = []

/-- UNCHANGED in the single-header flavour: an explicit empty patch with the patch
content type. -/
def isEmptyPatch (w : ResponseWriter) : Prop :=
  w.status = some StatusOK ∧ w.body = [Body.patch []]
    ∧ w.sent.Get HeaderContentType = MimeTypeJSONPatch

instance (w : ResponseWriter) (current : ObjTime) : Decidable (isFULL w current) := by
  unfold isFULL; exact inferInstance

instance (w : ResponseWriter) (status : Nat) (baseline current : ObjTime) :
    Decidable (isPATCH w status baseline current) := by
  unfold isPATCH; exact inferInstance

instance (w : ResponseWriter) : Decidable (isNotModified w) := by
  unfold isNotModified; exact inferInstance

instance (w : ResponseWriter) : Decidable (isEmptyPatch w) := by
  unfold isEmptyPatch; exact inferInstance

/-! ## A concrete state of a server

The store holds the document `Obj.one`, stamped 5 s after the epoch. The mutator
stamps the history entry of a document a moment after the store (`Add` reads
`time.Now()` itself), so the history holds `Obj.one` at 5.000000001 s and, before it,
the zero document at 4.000000001 s. -/

/-- The store of the example: `Obj.one`, stamped 5 s. -/
def exampleStore : ObjTime := ⟨⟨5, 0⟩, Obj.one⟩

/-- The history of the example, newest first. -/
def exampleHistory : ThsObjs := ⟨[⟨⟨5, 1⟩, Obj.one⟩, ⟨⟨4, 1⟩, Obj.zero⟩], 10⟩

/-- A stand-in for `ParseHTTPDate` in the examples, all of which send quoted tags and
so never reach it: it accepts no text. -/
def noHTTPDate : String → Option Time := fun _ => none

/-- A stand-in for `ParseHTTPDate` in the example of gmsserver: it knows the one
HTTP-date of the example, 6 s after the epoch, and accepts no other text. -/
def exampleHTTPDate : String → Option Time :=
  fun s => if s = "Thu, 01 Jan 1970 00:00:06 GMT" then some ⟨6, 0⟩ else none

/-! ## Properties of CreatePatch -/

theorem ite_append_singleton {α : Type} (c : Prop) [Decidable c] (l : List α) (x : α) :
    (if c then l ++ [x] else l) = l ++ (if c then [x] else []) := by
  split <;> simp

theorem filter_map_cons {α β : Type} (p : α → Bool) (f : α → β) (x : α) (xs : List α) :
    ((x :: xs).filter p).map f = (if p x then [f x] else []) ++ (xs.filter p).map f := by
  by_cases h : p x <;> simp [List.filter_cons, h]

/-- The result of `CreatePatch` as a concatenation of eight optional operations. -/
theorem CreatePatch_eq_append (a b : Obj) :
    CreatePatch a b =
      (if a.FooA.BarA.BazA ≠ b.FooA.BarA.BazA then
        [⟨"replace", "/foo-a/bar-a/baz-a", .int64 b.FooA.BarA.BazA⟩] else []) ++
      ((if a.FooA.BarA.BazB ≠ b.FooA.BarA.BazB then
        [⟨"replace", "/foo-a/bar-a/baz-b", .int64 b.FooA.BarA.BazB⟩] else []) ++
      ((if a.FooA.BarB.BazA ≠ b.FooA.BarB.BazA then
        [⟨"replace", "/foo-a/bar-b/baz-a", .int64 b.FooA.BarB.BazA⟩] else []) ++
      ((if a.FooA.BarB.BazB ≠ b.FooA.BarB.BazB then
        [⟨"replace", "/foo-a/bar-b/baz-b", .int64 b.FooA.BarB.BazB⟩] else []) ++
      ((if a.FooB.BarA.BazA ≠ b.FooB.BarA.BazA then
        [⟨"replace", "/foo-b/bar-a/baz-a", .int64 b.FooB.BarA.BazA⟩] else []) ++
      ((if a.FooB.BarA.BazB ≠ b.FooB.BarA.BazB then
        [⟨"replace", "/foo-b/bar-a/baz-b", .int64 b.FooB.BarA.BazB⟩] else []) ++
      ((if a.FooB.BarB.BazA ≠ b.FooB.BarB.BazA then
        [⟨"replace", "/foo-b/bar-b/baz-a", .int64 b.FooB.BarB.BazA⟩] else []) ++
      ((if a.FooB.BarB.BazB ≠ b.FooB.BarB.BazB then
        [⟨"replace", "/foo-b/bar-b/baz-b", .int64 b.FooB.BarB.BazB⟩] else []) ++ []))))))) := by
  simp only [CreatePatch, JSONPatchOpReplace, ite_append_singleton, List.nil_append]
  simp only [List.append_assoc, List.append_nil]

theorem CreatePatch_eq_canonicalDiff (a b : Obj) : CreatePatch a b = canonicalDiff a b := by
  rw [CreatePatch_eq_append]
  simp only [canonicalDiff, leaves, filter_map_cons, List.filter_nil, List.map_nil]
  simp

theorem leafPaths_increasing :
    leafPaths.Pairwise (fun p q => leafPaths.indexOf p < leafPaths.indexOf q) := by
  decide

theorem CreatePatch_nil_iff (a b : Obj) : CreatePatch a b = [] ↔ a = b := by
  rw [CreatePatch_eq_append]
  rcases a with ⟨⟨⟨a1, a2⟩, ⟨a3, a4⟩⟩, ⟨⟨a5, a6⟩, ⟨a7, a8⟩⟩⟩
  rcases b with ⟨⟨⟨b1, b2⟩, ⟨b3, b4⟩⟩, ⟨⟨b5, b6⟩, ⟨b7, b8⟩⟩⟩
  simp only [List.append_eq_nil]
  simp
  tauto

theorem CreatePatch_values_int64 (a b : Obj) :
    ∀ op ∈ CreatePatch a b, ∀ f, op.Value ≠ .float64 f := by
  intro op hop f
  rw [CreatePatch_eq_canonicalDiff, canonicalDiff, List.mem_map] at hop
  obtain ⟨l, _, rfl⟩ := hop
  simp

/-- C2: `CreatePatch a b` is the empty patch if and only if `a` and `b` are equal,
that is, have equal values at all eight leaves. -/
theorem CreatePatch_eq_nil_iff (a b : Obj) :
    (CreatePatch a b = [] ↔ a = b) ∧ (a = b ↔ ∀ l ∈ leaves, l.2 a = l.2 b) := by
  refine ⟨CreatePatch_nil_iff a b, ?_⟩
  rcases a with ⟨⟨⟨a1, a2⟩, ⟨a3, a4⟩⟩, ⟨⟨a5, a6⟩, ⟨a7, a8⟩⟩⟩
  rcases b with ⟨⟨⟨b1, b2⟩, ⟨b3, b4⟩⟩, ⟨⟨b5, b6⟩, ⟨b7, b8⟩⟩⟩
  simp [leaves]
  tauto

/-- C3: `CreatePatch a b` is the list obtained by walking the eight leaf paths in the
canonical order and keeping, for exactly the paths where `a` and `b` differ, one
`replace` operation with that path and the value of `b`; hence the paths of the
result are strictly increasing in the canonical order and have no duplicates. -/
theorem CreatePatch_canonical (a b : Obj) :
    leafPaths =
        ["/foo-a/bar-a/baz-a", "/foo-a/bar-a/baz-b", "/foo-a/bar-b/baz-a", "/foo-a/bar-b/baz-b",
         "/foo-b/bar-a/baz-a", "/foo-b/bar-a/baz-b", "/foo-b/bar-b/baz-a", "/foo-b/bar-b/baz-b"]
      ∧ CreatePatch a b = canonicalDiff a b
      ∧ ((CreatePatch a b).map (fun op => op.Path)).Pairwise
          (fun p q => leafPaths.indexOf p < leafPaths.indexOf q)
      ∧ ((CreatePatch a b).map (fun op => op.Path)).Nodup := by
  have hsub : List.Sublist ((CreatePatch a b).map (fun op => op.Path)) leafPaths := by
    rw [CreatePatch_eq_canonicalDiff, canonicalDiff, List.map_map, leafPaths]
    exact (List.filter_sublist _).map _
  refine ⟨rfl, CreatePatch_eq_canonicalDiff a b, leafPaths_increasing.sublist hsub, ?_⟩
  exact List.Nodup.sublist hsub (by decide)

/-! ## Properties of ApplyPatch -/

theorem ApplyPatch_error_zero (indef : Float64 → Int) (p : List JSONPatchOp) :
    ∀ d : Obj, (ApplyPatch indef d p).2 ≠ none → (ApplyPatch indef d p).1 = Obj.zero := by
  induction p with
  | nil => intro d h; simp [ApplyPatch] at h
  | cons op ops ih =>
    intro d h
    simp only [ApplyPatch] at h ⊢
    cases hop : applyOp indef d op with
    | ok d' => rw [hop] at h; exact ih d' h
    | error e => rfl

theorem applyOp_not_float64 (indef : Float64 → Int) (d : Obj) (op : JSONPatchOp)
    (h : ∀ f, op.Value ≠ .float64 f) : ∃ e, applyOp indef d op = .error e := by
  unfold applyOp
  split
  · rename_i val hv; exact absurd hv (h val)
  · exact ⟨_, rfl⟩

theorem ApplyPatch_not_float64 (indef : Float64 → Int) (p : List JSONPatchOp)
    (h : ∃ op ∈ p, ∀ f, op.Value ≠ .float64 f) :
    ∀ d : Obj, (ApplyPatch indef d p).2 ≠ none := by
  induction p with
  | nil => simp at h
  | cons op ops ih =>
    intro d
    simp only [ApplyPatch]
    cases hop : applyOp indef d op with
    | error e => simp
    | ok d' =>
      obtain ⟨op', hmem, hval⟩ := h
      rcases List.mem_cons.mp hmem with rfl | hmem
      · obtain ⟨e, he⟩ := applyOp_not_float64 indef d op' hval
        rw [he] at hop; cases hop
      · exact ih ⟨op', hmem, hval⟩ d'

theorem applyOp_FooA_BarA_BazA (indef : Float64 → Int) (obj : Obj) (op : String) (f : Float64) :
    applyOp indef obj ⟨op, "/foo-a/bar-a/baz-a", .float64 f⟩ =
      .ok { obj with FooA.BarA.BazA := int64OfFloat64 indef f } := rfl

theorem applyOp_FooA_BarA_BazB (indef : Float64 → Int) (obj : Obj) (op : String) (f : Float64) :
    applyOp indef obj ⟨op, "/foo-a/bar-a/baz-b", .float64 f⟩ =
      .ok { obj with FooA.BarA.BazB := int64OfFloat64 indef f } := rfl

theorem applyOp_FooA_BarB_BazA (indef : Float64 → Int) (obj : Obj) (op : String) (f : Float64) :
    applyOp indef obj ⟨op, "/foo-a/bar-b/baz-a", .float64 f⟩ =
      .ok { obj with FooA.BarB.BazA := int64OfFloat64 indef f } := rfl

theorem applyOp_FooA_BarB_BazB (indef : Float64 → Int) (obj : Obj) (op : String) (f : Float64) :
    applyOp indef obj ⟨op, "/foo-a/bar-b/baz-b", .float64 f⟩ =
      .ok { obj with FooA.BarB.BazB := int64OfFloat64 indef f } := rfl

theorem applyOp_FooB_BarA_BazA (indef : Float64 → Int) (obj : Obj) (op : String) (f : Float64) :
    applyOp indef obj ⟨op, "/foo-b/bar-a/baz-a", .float64 f⟩ =
      .ok { obj with FooB.BarA.BazA := int64OfFloat64 indef f } := rfl

theorem applyOp_FooB_BarA_BazB (indef : Float64 → Int) (obj : Obj) (op : String) (f : Float64) :
    applyOp indef obj ⟨op, "/foo-b/bar-a/baz-b", .float64 f⟩ =
      .ok { obj with FooB.BarA.BazB := int64OfFloat64 indef f } := rfl

theorem applyOp_FooB_BarB_BazA (indef : Float64 → Int) (obj : Obj) (op : String) (f : Float64) :
    applyOp indef obj ⟨op, "/foo-b/bar-b/baz-a", .float64 f⟩ =
      .ok { obj with FooB.BarB.BazA := int64OfFloat64 indef f } := rfl

theorem applyOp_FooB_BarB_BazB (indef : Float64 → Int) (obj : Obj) (op : String) (f : Float64) :
    applyOp indef obj ⟨op, "/foo-b/bar-b/baz-b", .float64 f⟩ =
      .ok { obj with FooB.BarB.BazB := int64OfFloat64 indef f } := rfl

theorem ApplyPatch_step (indef : Float64 → Int) (c : Prop) [Decidable c] (op : JSONPatchOp)
    (rest : List JSONPatchOp) (obj obj₁ : Obj)
    (h1 : c → applyOp indef obj op = .ok obj₁) (h2 : ¬c → obj = obj₁) :
    ApplyPatch indef obj ((if c then [op] else []) ++ rest) = ApplyPatch indef obj₁ rest := by
  by_cases hc : c
  · simp [hc, ApplyPatch, h1 hc]
  · simp [hc, h2 hc]

theorem ApplyPatch_step_ok (indef : Float64 → Int) (c : Prop) [Decidable c] (op : JSONPatchOp)
    (rest : List JSONPatchOp)
    (h1 : ∀ obj, ∃ obj₁, applyOp indef obj op = .ok obj₁)
    (h2 : ∀ obj, (ApplyPatch indef obj rest).2 = none) :
    ∀ obj, (ApplyPatch indef obj ((if c then [op] else []) ++ rest)).2 = none := by
  intro obj
  by_cases hc : c
  · obtain ⟨obj₁, h⟩ := h1 obj
    simp [hc, ApplyPatch, h, h2]
  · simp [hc, h2]

theorem overJSON_step (c : Prop) [Decidable c] (op path : String) (v : Int)
    (rest wire : List JSONPatchOp) (h : overJSON rest = some wire) :
    overJSON ((if c then [⟨op, path, .int64 v⟩] else []) ++ rest) =
      some ((if c then [⟨op, path, .float64 (float64OfInt v)⟩] else []) ++ wire) := by
  by_cases hc : c
  · simp [hc, overJSON, h, Value.overJSON]
  · simp [hc, h]

theorem int64OfFloat64_float64OfInt (indef : Float64 → Int) (v : Int) (h : v.natAbs ≤ 2 ^ 53) :
    int64OfFloat64 indef (float64OfInt v) = v := by
  have hr : isInt64 v := by unfold isInt64; omega
  by_cases hlt : v.natAbs < 2 ^ 53
  · have hf : float64OfInt v = .finite v 0 := by
      simp only [float64OfInt]
      rw [if_pos hlt]
    rw [hf]
    simp [int64OfFloat64, Float64.trunc, hr]
  · have hv : v = 2 ^ 53 ∨ v = -2 ^ 53 := by omega
    have hpos : float64OfInt (2 ^ 53) = .finite (2 ^ 52) 1 := by decide
    have hneg : float64OfInt (-2 ^ 53) = .finite (-2 ^ 52) 1 := by decide
    rcases hv with rfl | rfl
    · rw [hpos]; simp [int64OfFloat64, Float64.trunc, isInt64]
    · rw [hneg]; simp [int64OfFloat64, Float64.trunc, isInt64]

/-- The patch `CreatePatch a b` as decoded by the client. -/
theorem overJSON_CreatePatch (a b : Obj) :
    overJSON (CreatePatch a b) = some
      ((if a.FooA.BarA.BazA ≠ b.FooA.BarA.BazA then
        [⟨"replace", "/foo-a/bar-a/baz-a", .float64 (float64OfInt b.FooA.BarA.BazA)⟩] else []) ++
      ((if a.FooA.BarA.BazB ≠ b.FooA.BarA.BazB then
        [⟨"replace", "/foo-a/bar-a/baz-b", .float64 (float64OfInt b.FooA.BarA.BazB)⟩] else []) ++
      ((if a.FooA.BarB.BazA ≠ b.FooA.BarB.BazA then
        [⟨"replace", "/foo-a/bar-b/baz-a", .float64 (float64OfInt b.FooA.BarB.BazA)⟩] else []) ++
      ((if a.FooA.BarB.BazB ≠ b.FooA.BarB.BazB then
        [⟨"replace", "/foo-a/bar-b/baz-b", .float64 (float64OfInt b.FooA.BarB.BazB)⟩] else []) ++
      ((if a.FooB.BarA.BazA ≠ b.FooB.BarA.BazA then
        [⟨"replace", "/foo-b/bar-a/baz-a", .float64 (float64OfInt b.FooB.BarA.BazA)⟩] else []) ++
      ((if a.FooB.BarA.BazB ≠ b.FooB.BarA.BazB then
        [⟨"replace", "/foo-b/bar-a/baz-b", .float64 (float64OfInt b.FooB.BarA.BazB)⟩] else []) ++
      ((if a.FooB.BarB.BazA ≠ b.FooB.BarB.BazA then
        [⟨"replace", "/foo-b/bar-b/baz-a", .float64 (float64OfInt b.FooB.BarB.BazA)⟩] else []) ++
      ((if a.FooB.BarB.BazB ≠ b.FooB.BarB.BazB then
        [⟨"replace", "/foo-b/bar-b/baz-b", .float64 (float64OfInt b.FooB.BarB.BazB)⟩] else []) ++ [])))))))) := by
  rw [CreatePatch_eq_append]
  iterate 8 apply overJSON_step
  rfl

theorem ApplyPatch_wire_ok (indef : Float64 → Int) (a b : Obj) (wire : List JSONPatchOp)
    (hw : overJSON (CreatePatch a b) = some wire) :
    ∀ obj, (ApplyPatch indef obj wire).2 = none := by
  rw [overJSON_CreatePatch] at hw
  cases hw
  iterate 8 refine ApplyPatch_step_ok indef _ _ _ (fun obj => ⟨_, rfl⟩) ?_
  intro obj; rfl

theorem ApplyPatch_wire_eq (indef : Float64 → Int) (a b : Obj) (wire : List JSONPatchOp)
    (hw : overJSON (CreatePatch a b) = some wire)
    (hb : ∀ l ∈ leaves, l.2 a ≠ l.2 b → (l.2 b).natAbs ≤ 2 ^ 53) :
    ApplyPatch indef a wire = (b, none) := by
  rw [overJSON_CreatePatch] at hw
  cases hw
  rcases a with ⟨⟨⟨a1, a2⟩, ⟨a3, a4⟩⟩, ⟨⟨a5, a6⟩, ⟨a7, a8⟩⟩⟩
  rcases b with ⟨⟨⟨b1, b2⟩, ⟨b3, b4⟩⟩, ⟨⟨b5, b6⟩, ⟨b7, b8⟩⟩⟩
  simp only [leaves, List.forall_mem_cons, List.not_mem_nil, false_imp_iff, implies_true,
    and_true] at hb
  obtain ⟨h1, h2, h3, h4, h5, h6, h7, h8⟩ := hb
  dsimp only
  rw [ApplyPatch_step indef _ _ _ _ ⟨⟨⟨b1, a2⟩, ⟨a3, a4⟩⟩, ⟨⟨a5, a6⟩, ⟨a7, a8⟩⟩⟩
    (fun hc => by rw [applyOp_FooA_BarA_BazA, int64OfFloat64_float64OfInt indef _ (h1 hc)])
    (fun hc => by rw [not_not.mp hc])]
  rw [ApplyPatch_step indef _ _ _ _ ⟨⟨⟨b1, b2⟩, ⟨a3, a4⟩⟩, ⟨⟨a5, a6⟩, ⟨a7, a8⟩⟩⟩
    (fun hc => by rw [applyOp_FooA_BarA_BazB, int64OfFloat64_float64OfInt indef _ (h2 hc)])
    (fun hc => by rw [not_not.mp hc])]
  rw [ApplyPatch_step indef _ _ _ _ ⟨⟨⟨b1, b2⟩, ⟨b3, a4⟩⟩, ⟨⟨a5, a6⟩, ⟨a7, a8⟩⟩⟩
    (fun hc => by rw [applyOp_FooA_BarB_BazA, int64OfFloat64_float64OfInt indef _ (h3 hc)])
    (fun hc => by rw [not_not.mp hc])]
  rw [ApplyPatch_step indef _ _ _ _ ⟨⟨⟨b1, b2⟩, ⟨b3, b4⟩⟩, ⟨⟨a5, a6⟩, ⟨a7, a8⟩⟩⟩
    (fun hc => by rw [applyOp_FooA_BarB_BazB, int64OfFloat64_float64OfInt indef _ (h4 hc)])
    (fun hc => by rw [not_not.mp hc])]
  rw [ApplyPatch_step indef _ _ _ _ ⟨⟨⟨b1, b2⟩, ⟨b3, b4⟩⟩, ⟨⟨b5, a6⟩, ⟨a7, a8⟩⟩⟩
    (fun hc => by rw [applyOp_FooB_BarA_BazA, int64OfFloat64_float64OfInt indef _ (h5 hc)])
    (fun hc => by rw [not_not.mp hc])]
  rw [ApplyPatch_step indef _ _ _ _ ⟨⟨⟨b1, b2⟩, ⟨b3, b4⟩⟩, ⟨⟨b5, b6⟩, ⟨a7, a8⟩⟩⟩
    (fun hc => by rw [applyOp_FooB_BarA_BazB, int64OfFloat64_float64OfInt indef _ (h6 hc)])
    (fun hc => by rw [not_not.mp hc])]
  rw [ApplyPatch_step indef _ _ _ _ ⟨⟨⟨b1, b2⟩, ⟨b3, b4⟩⟩, ⟨⟨b5, b6⟩, ⟨b7, a8⟩⟩⟩
    (fun hc => by rw [applyOp_FooB_BarB_BazA, int64OfFloat64_float64OfInt indef _ (h7 hc)])
    (fun hc => by rw [not_not.mp hc])]
  rw [ApplyPatch_step indef _ _ _ _ ⟨⟨⟨b1, b2⟩, ⟨b3, b4⟩⟩, ⟨⟨b5, b6⟩, ⟨b7, b8⟩⟩⟩
    (fun hc => by rw [applyOp_FooB_BarB_BazB, int64OfFloat64_float64OfInt indef _ (h8 hc)])
    (fun hc => by rw [not_not.mp hc])]
  rfl
/-! ## The round trip through a patch -/

/-- The round trip as the servers and clients perform it: the patch `CreatePatch a b`,
once marshalled to JSON and decoded by the client (every value arriving as a
`float64`), applies to `a` without error, and the result is exactly `b` when every
leaf of `b` that differs from `a` has magnitude at most `2 ^ 53` (a sufficient
condition for the value to be carried exactly). Applied directly, without the JSON
transport, `ApplyPatch` rejects the patch unless `a = b`, because the values
`CreatePatch` stores are `int64`, not `float64`. -/
theorem ApplyPatch_CreatePatch_overJSON (indef : Float64 → Int) (a b : Obj) :
    (∃ wire, overJSON (CreatePatch a b) = some wire
      ∧ (ApplyPatch indef a wire).2 = none
      ∧ ((∀ l ∈ leaves, l.2 a ≠ l.2 b → (l.2 b).natAbs ≤ 2 ^ 53) →
          ApplyPatch indef a wire = (b, none)))
    ∧ ((ApplyPatch indef a (CreatePatch a b)).2 = none ↔ a = b) := by
  refine ⟨⟨_, overJSON_CreatePatch a b, ?_, ?_⟩, ?_⟩
  · exact ApplyPatch_wire_ok indef a b _ (overJSON_CreatePatch a b) a
  · exact ApplyPatch_wire_eq indef a b _ (overJSON_CreatePatch a b)
  · constructor
    · intro h
      by_contra hab
      cases hp : CreatePatch a b with
      | nil => exact hab ((CreatePatch_nil_iff a b).mp hp)
      | cons op ops =>
        have hv := CreatePatch_values_int64 a b op (by rw [hp]; exact List.mem_cons_self _ _)
        rw [hp] at h
        exact ApplyPatch_not_float64 indef (op :: ops) ⟨op, List.mem_cons_self _ _, hv⟩ a h
    · intro hab
      rw [(CreatePatch_nil_iff a b).mpr hab]
      rfl

/-- An instance of the round trip over JSON: the patch from the zero document to
`Obj.one`, decoded by the client, applies to the zero document and gives `Obj.one`. -/
theorem ApplyPatch_CreatePatch_overJSON_witness :
    ∃ wire, overJSON (CreatePatch Obj.zero Obj.one) = some wire
      ∧ ApplyPatch amd64 Obj.zero wire = (Obj.one, none) := by
  obtain ⟨wire, hw, _, heq⟩ := (ApplyPatch_CreatePatch_overJSON amd64 Obj.zero Obj.one).1
  exact ⟨wire, hw, heq (by decide)⟩

/-- C1, at the failing input: `ApplyPatch` applied to the zero document and the very
slice `CreatePatch` returns for the zero document and `Obj.one`. The type assertion
`patch.Value.(float64)` fails on the `int64` value `CreatePatch` stored, so the call
reports "unsupported value" and returns the zero document, not `Obj.one`. -/
theorem ApplyPatch_CreatePatch_direct_fails :
    ApplyPatch amd64 Obj.zero (CreatePatch Obj.zero Obj.one)
      = (Obj.zero, some (.unsupportedValue "/foo-a/bar-a/baz-a" (.int64 1))) := by
  decide

/-! ## Validation in ApplyPatch -/

theorem Split_leafPaths :
    leafPaths.map Split =
      [["", "foo-a", "bar-a", "baz-a"], ["", "foo-a", "bar-a", "baz-b"],
       ["", "foo-a", "bar-b", "baz-a"], ["", "foo-a", "bar-b", "baz-b"],
       ["", "foo-b", "bar-a", "baz-a"], ["", "foo-b", "bar-a", "baz-b"],
       ["", "foo-b", "bar-b", "baz-a"], ["", "foo-b", "bar-b", "baz-b"]] := by
  decide

/-- The validation `applyOp` performs: the value is a `float64` and the path splits at
its slashes into four parts of which the last three are the segments of a leaf path;
the first part, the text before the first slash, is not examined. -/
theorem applyOp_ok_iff (indef : Float64 → Int) (d : Obj) (op : JSONPatchOp) :
    (∃ d', applyOp indef d op = .ok d') ↔
      (∃ f, op.Value = .float64 f) ∧
        ∃ x, ∃ l ∈ leafPaths.map Split, Split op.Path = x :: l.tail := by
  rw [Split_leafPaths]
  unfold applyOp
  split
  · rename_i val hv
    simp only [hv, Value.float64.injEq, exists_eq', true_and]
    split
    · rename_i x p0 p1 p2 hs
      simp only [hs]
      split_ifs <;> simp_all
    · rename_i hs
      simp only [reduceCtorEq, exists_false, false_iff]
      rintro ⟨x, l, hl, hsp⟩
      simp only [List.mem_cons, List.mem_singleton, List.not_mem_nil, or_false] at hl
      rcases hl with rfl | rfl | rfl | rfl | rfl | rfl | rfl | rfl <;>
        exact hs _ _ _ _ hsp
  · rename_i hv
    simp only [reduceCtorEq, exists_false, false_iff]
    rintro ⟨⟨f, hf⟩, -⟩
    exact hv f hf

/-- `ApplyPatch` reports no error exactly when every operation passes the validation of
`applyOp`. -/
theorem ApplyPatch_ok_iff (indef : Float64 → Int) (p : List JSONPatchOp) :
    ∀ d : Obj, (ApplyPatch indef d p).2 = none ↔
      ∀ op ∈ p, (∃ f, op.Value = .float64 f) ∧
        ∃ x, ∃ l ∈ leafPaths.map Split, Split op.Path = x :: l.tail := by
  induction p with
  | nil => intro d; simp [ApplyPatch]
  | cons op ops ih =>
    intro d
    simp only [ApplyPatch, List.forall_mem_cons]
    cases hop : applyOp indef d op with
    | ok d' =>
      have hacc := (applyOp_ok_iff indef d op).mp ⟨d', hop⟩
      simp only [ih d', hacc, true_and]
    | error e =>
      simp only [reduceCtorEq, false_iff]
      rintro ⟨hacc, -⟩
      obtain ⟨d', hd'⟩ := (applyOp_ok_iff indef d op).mpr hacc
      rw [hd'] at hop
      cases hop

/-- C4, at the failing input: the path `x/foo-a/bar-a/baz-a` is none of the eight leaf
paths (it has text before the first slash), its value is numeric, and `ApplyPatch`
accepts it without error and writes leaf `/foo-a/bar-a/baz-a`. -/
theorem ApplyPatch_accepts_text_before_first_slash :
    "x/foo-a/bar-a/baz-a" ∉ leafPaths
      ∧ ApplyPatch amd64 Obj.zero [⟨"replace", "x/foo-a/bar-a/baz-a", .float64 (.finite 1 0)⟩]
          = (Obj.one, none) := by
  decide

theorem ApplyPatch_append_ok (indef : Float64 → Int) (p q : List JSONPatchOp) :
    ∀ (d r0 : Obj), ApplyPatch indef d p = (r0, none) →
      ApplyPatch indef d (p ++ q) = ApplyPatch indef r0 q := by
  induction p with
  | nil =>
    intro d r0 h
    simp only [ApplyPatch, Prod.mk.injEq, and_true] at h
    subst h
    rfl
  | cons op ops ih =>
    intro d r0 h
    simp only [ApplyPatch, List.cons_append] at h ⊢
    cases hop : applyOp indef d op with
    | ok d' =>
      rw [hop] at h
      simp only at h ⊢
      exact ih d' r0 h
    | error e =>
      rw [hop] at h
      simp at h

/-- An operation with a `float64` value on any of the eight leaf paths is carried out
whatever the value: the leaf takes `int64(val)` and every other leaf keeps its value. -/
theorem applyOp_leaf (indef : Float64 → Int) (obj : Obj) (op : String) (f : Float64)
    (l : String × (Obj → Int)) (hl : l ∈ leaves) :
    ∃ r, applyOp indef obj ⟨op, l.1, .float64 f⟩ = .ok r
      ∧ l.2 r = int64OfFloat64 indef f
      ∧ ∀ l' ∈ leaves, l'.1 ≠ l.1 → l'.2 r = l'.2 obj := by
  simp only [leaves, List.mem_cons, List.mem_singleton, List.not_mem_nil, or_false] at hl
  rcases hl with rfl | rfl | rfl | rfl | rfl | rfl | rfl | rfl
  all_goals
    refine ⟨_, rfl, rfl, ?_⟩
    intro l' hl' hne
    simp only [leaves, List.mem_cons, List.mem_singleton, List.not_mem_nil, or_false] at hl'
    rcases hl' with rfl | rfl | rfl | rfl | rfl | rfl | rfl | rfl
    all_goals first
      | rfl
      | exact absurd rfl hne

/-- C5, as the code has it: a patch with an operation whose value is not a JSON number
(not a Go `float64`) is rejected with an error. A `float64` is never rejected for its
value: a patch whose values are all `float64` is rejected exactly when some path is
not supported (cut at its slashes it must have four parts, the last three being the
segments of a leaf path), whatever the values are; and an operation on any of the
eight leaves, after any patch that was applied without error, stores at that leaf the
value with its fraction discarded whenever that is an `int64`, and leaves the other
leaves as they were. -/
theorem ApplyPatch_rejects_non_number (indef : Float64 → Int) (d : Obj) (p : List JSONPatchOp) :
    ((∃ op ∈ p, ∀ f, op.Value ≠ .float64 f) → (ApplyPatch indef d p).2 ≠ none)
    ∧ ((∀ op ∈ p, ∃ f, op.Value = .float64 f) →
        ((ApplyPatch indef d p).2 = none ↔
          ∀ op ∈ p, ∃ x, ∃ l ∈ leafPaths.map Split, Split op.Path = x :: l.tail))
    ∧ (∀ (r0 : Obj) (op : String) (l : String × (Obj → Int)) (f : Float64) (t : Int),
        ApplyPatch indef d p = (r0, none) → l ∈ leaves → f.trunc = some t → isInt64 t →
        ∃ r, ApplyPatch indef d (p ++ [⟨op, l.1, .float64 f⟩]) = (r, none)
          ∧ l.2 r = t
          ∧ ∀ l' ∈ leaves, l'.1 ≠ l.1 → l'.2 r = l'.2 r0) := by
  refine ⟨fun h => ApplyPatch_not_float64 indef p h d, ?_, ?_⟩
  · intro hall
    rw [ApplyPatch_ok_iff indef p d]
    constructor
    · intro h op hop
      exact (h op hop).2
    · intro h op hop
      exact ⟨hall op hop, h op hop⟩
  · intro r0 op l f t hp hl ht hr
    obtain ⟨r, hop, hleaf, hrest⟩ := applyOp_leaf indef r0 op f l hl
    refine ⟨r, ?_, ?_, hrest⟩
    · rw [ApplyPatch_append_ok indef p _ d r0 hp]
      simp only [ApplyPatch, hop]
    · rw [hleaf]
      simp [int64OfFloat64, ht, hr]

/-- Witness of C5: a patch carrying the string `"1"` is rejected; a patch that sets
leaf `/foo-a/bar-a/baz-a` to 7 and then carries 1.5 for leaf `/foo-b/bar-b/baz-b` is
applied, and that leaf holds 1. -/
theorem ApplyPatch_rejects_non_number_witness :
    (ApplyPatch amd64 Obj.zero [⟨"replace", "/foo-a/bar-a/baz-a", .string "1"⟩]).2 ≠ none
      ∧ ∃ r, ApplyPatch amd64 Obj.zero
            ([⟨"replace", "/foo-a/bar-a/baz-a", .float64 (.finite 7 0)⟩]
              ++ [⟨"replace", "/foo-b/bar-b/baz-b", .float64 (.finite 3 (-1))⟩]) = (r, none)
          ∧ r.FooB.BarB.BazB = 1 := by
  refine ⟨(ApplyPatch_rejects_non_number amd64 Obj.zero
      [⟨"replace", "/foo-a/bar-a/baz-a", .string "1"⟩]).1
    ⟨_, List.mem_cons_self _ _, by intro f h; cases h⟩, ?_⟩
  obtain ⟨r, hr, hleaf, _⟩ :=
    (ApplyPatch_rejects_non_number amd64 Obj.zero
      [⟨"replace", "/foo-a/bar-a/baz-a", .float64 (.finite 7 0)⟩]).2.2
      ⟨⟨⟨7, 0⟩, ⟨0, 0⟩⟩, ⟨⟨0, 0⟩, ⟨0, 0⟩⟩⟩ "replace"
      ("/foo-b/bar-b/baz-b", fun o => o.FooB.BarB.BazB) (.finite 3 (-1)) 1
      (by decide) (by simp [leaves]) (by decide) (by decide)
  exact ⟨r, hr, hleaf⟩

/-- Counterexample to C5 as stated: the value 1.5 (`3 * 2 ^ (-1)`, a well-formed
`float64` that is not a whole number) is not rejected; `ApplyPatch` reports no error
and stores the converted value 1. -/
theorem ApplyPatch_truncates_fraction :
    (Float64.finite 3 (-1)).wellFormed
      ∧ ApplyPatch amd64 Obj.zero [⟨"replace", "/foo-a/bar-a/baz-a", .float64 (.finite 3 (-1))⟩]
          = (Obj.one, none) := by
  decide

/-- C6, at the failing input: an operation named `remove` (not `replace`) with a known
path and a numeric value is not rejected; `ApplyPatch` reports no error and performs
it as a replacement. -/
theorem ApplyPatch_ignores_op_name :
    "remove" ≠ JSONPatchOpReplace
      ∧ ApplyPatch amd64 Obj.zero [⟨"remove", "/foo-a/bar-a/baz-a", .float64 (.finite 1 0)⟩]
          = (Obj.one, none) := by
  decide

/-- C7: whenever `ApplyPatch d p` reports an error, the document it returns is the
zero-value document, whatever `d` is and however many leading operations of `p` were
valid; no partially updated document is returned. (The parameter is passed by value:
the caller's `d` is the same value before and after the call.) -/
theorem ApplyPatch_error_returns_zero (indef : Float64 → Int) (d : Obj) (p : List JSONPatchOp)
    (h : (ApplyPatch indef d p).2 ≠ none) : (ApplyPatch indef d p).1 = Obj.zero :=
  ApplyPatch_error_zero indef p d h

/-- Witness of C7: the first operation is valid and sets a leaf to 5, the second names
the unknown path `/foo-a/unknown-b/baz-a`; the call reports an error and returns the
zero document. -/
theorem ApplyPatch_error_returns_zero_witness :
    (ApplyPatch amd64 Obj.one
        [⟨"replace", "/foo-b/bar-a/baz-a", .float64 (.finite 5 0)⟩,
         ⟨"replace", "/foo-a/unknown-b/baz-a", .float64 (.finite 7 0)⟩]).2 ≠ none
      ∧ (ApplyPatch amd64 Obj.one
        [⟨"replace", "/foo-b/bar-a/baz-a", .float64 (.finite 5 0)⟩,
         ⟨"replace", "/foo-a/unknown-b/baz-a", .float64 (.finite 7 0)⟩]).1 = Obj.zero :=
  ⟨by decide, ApplyPatch_error_returns_zero amd64 Obj.one _ (by decide)⟩

/-! ## The version tag codec -/

theorem wrapInt64_of_isInt64 (v : Int) (h : isInt64 v) : wrapInt64 v = v := by
  unfold isInt64 at h
  unfold wrapInt64
  omega

theorem digitVal_digitChar (m : Nat) (h : m < 10) : digitVal (Nat.digitChar m) = some m := by
  interval_cases m <;> rfl

theorem parseDigits_toDigitsCore (fuel : Nat) :
    ∀ (n : Nat) (ds : List Char), n < fuel →
      ∃ k, 0 < k ∧ ∀ acc, parseDigits acc (Nat.toDigitsCore 10 fuel n ds)
        = parseDigits (acc * 10 ^ k + n) ds := by
  induction fuel with
  | zero => intro n ds h; omega
  | succ fuel ih =>
    intro n ds h
    unfold Nat.toDigitsCore
    have hd : digitVal (Nat.digitChar (n % 10)) = some (n % 10) :=
      digitVal_digitChar _ (Nat.mod_lt _ (by decide))
    by_cases h0 : n / 10 = 0
    · refine ⟨1, by decide, fun acc => ?_⟩
      simp only [h0, if_true, parseDigits, hd]
      congr 1
      omega
    · obtain ⟨k, hk, ih⟩ := ih (n / 10) (Nat.digitChar (n % 10) :: ds) (by omega)
      refine ⟨k + 1, by omega, fun acc => ?_⟩
      simp only [h0, if_false, ih, parseDigits, hd]
      congr 1
      rw [pow_succ]
      have := Nat.div_add_mod n 10
      nlinarith [this]

theorem parseDigits_toDigits (n : Nat) :
    Nat.toDigits 10 n ≠ [] ∧ parseDigits 0 (Nat.toDigits 10 n) = some n := by
  obtain ⟨k, hk, h⟩ := parseDigits_toDigitsCore (n + 1) n [] (by omega)
  constructor
  · intro hnil
    have h1 := h 1
    have hnil' : Nat.toDigitsCore 10 (n + 1) n [] = [] := hnil
    rw [hnil'] at h1
    simp only [parseDigits, Option.some.injEq] at h1
    have : 10 ^ k ≥ 10 ^ 1 := Nat.pow_le_pow_right (by decide) hk
    omega
  · have h0 := h 0
    simpa [Nat.toDigits, parseDigits] using h0

theorem ParseInt_FormatInt (i : Int) (h : isInt64 i) : ParseInt (FormatInt i) = some i := by
  obtain ⟨hne, hparse⟩ := parseDigits_toDigits i.natAbs
  unfold isInt64 at h
  by_cases hneg : i < 0
  · simp only [FormatInt, hneg, if_true, ParseInt]
    simp [hne, hparse]
    rw [abs_of_neg hneg]
    omega
  · cases hds : Nat.toDigits 10 i.natAbs with
    | nil => exact absurd hds hne
    | cons c cs =>
      rw [hds] at hparse
      have hc : digitVal c ≠ none := by
        intro hnone
        simp [parseDigits, hnone] at hparse
      have hplus : c ≠ '+' := by rintro rfl; exact hc (by decide)
      have hminus : c ≠ '-' := by rintro rfl; exact hc (by decide)
      simp only [FormatInt, hneg, if_false, ParseInt, hds]
      simp [hplus, hminus, hparse]
      omega

theorem Time_Unix_UnixNano (t : Time) (ht : t.wellFormed) :
    Time.Unix 0 (t.sec * 10 ^ 9 + t.nsec) = t := by
  obtain ⟨s, ns⟩ := t
  unfold Time.wellFormed at ht
  simp only at ht
  norm_num at ht
  have htdiv : ∀ i : Int, i.tdiv 1000000000 =
      if 0 ≤ i then i / 1000000000 else -((-i) / 1000000000) := by
    intro i
    split
    · exact Int.tdiv_eq_ediv (by assumption) (by decide)
    · rw [← Int.tdiv_eq_ediv (by omega) (by decide), Int.neg_tdiv, neg_neg]
  unfold Time.Unix
  norm_num
  rw [htdiv]
  split_ifs <;> simp only [Time.mk.injEq] <;> omega

/-- C8, as the code has it: for every version stamp `t` whose nanosecond count since
the Unix epoch is an `int64` (an instant between the years 1678 and 2262),
`ParseETag (GenerateETag t)` succeeds and returns the instant `t`. -/
theorem ParseETag_GenerateETag (t : Time) (ht : t.wellFormed)
    (hr : isInt64 (t.sec * 10 ^ 9 + t.nsec)) : ParseETag (GenerateETag t) = (t, none) := by
  unfold ParseETag GenerateETag Time.UnixNano
  rw [wrapInt64_of_isInt64 _ hr, ParseInt_FormatInt _ hr]
  simp only [Time_Unix_UnixNano t ht]

/-- Witness of C8: the stamp 1700000000.123456789 s after the Unix epoch. -/
theorem ParseETag_GenerateETag_witness :
    (⟨1700000000, 123456789⟩ : Time).wellFormed
      ∧ isInt64 (1700000000 * 10 ^ 9 + 123456789)
      ∧ ParseETag (GenerateETag ⟨1700000000, 123456789⟩) = (⟨1700000000, 123456789⟩, none) :=
  ⟨by decide, by decide, ParseETag_GenerateETag ⟨1700000000, 123456789⟩ (by decide) (by decide)⟩

/-- Counterexample to C8 as stated: the zero time stamp, with which the store is
initialised, lies outside the `int64` nanosecond range; its tag is
`-6795364578871345152`, which decodes without error to an instant in the year 1754,
not to the zero time stamp. -/
theorem zero_time_tag_decodes_elsewhere :
    GenerateETag Time.zero = "-6795364578871345152"
      ∧ ParseETag (GenerateETag Time.zero) = (⟨-6795364579, 128654848⟩, none)
      ∧ (ParseETag (GenerateETag Time.zero)).1 ≠ Time.zero := by
  decide

/-! ## The bounded history -/

theorem take_append_take {α : Type} (c : Nat) (xs ys : List α) :
    (xs ++ ys.take c).take c = (xs ++ ys).take c := by
  rw [List.take_append_eq_append_take, List.take_append_eq_append_take, List.take_take]
  congr 2
  omega

/-- With a capacity that is not negative, `Add` never panics: it puts the new entry in
front and keeps the first `max` entries. -/
theorem Add_eq_take (r : ThsObjs) (now : Time) (newO : Obj) (h : 0 ≤ r.max) :
    r.Add now newO = some { r with o := (⟨now, newO⟩ :: r.o).take r.max.toNat } := by
  unfold ThsObjs.Add
  by_cases hlen : (((⟨now, newO⟩ : ObjTime) :: r.o).length : Int) > r.max
  · simp only [hlen, h, if_true]
  · simp only [hlen, if_false]
    rw [List.take_of_length_le]
    omega

theorem AddAll_eq_take (c : Nat) (adds : List (Time × Obj)) :
    ∀ l : List ObjTime, l.length ≤ c →
      ThsObjs.AddAll ⟨l, c⟩ adds
        = some ⟨((adds.map (fun x => ObjTime.mk x.1 x.2)).reverse ++ l).take c, c⟩ := by
  induction adds with
  | nil =>
    intro l hl
    simp [ThsObjs.AddAll, List.take_of_length_le hl]
  | cons x rest ih =>
    intro l hl
    obtain ⟨now, newO⟩ := x
    simp only [ThsObjs.AddAll]
    rw [Add_eq_take _ _ _ (by simp)]
    simp only [Int.toNat_ofNat]
    rw [ih _ (by simp [List.length_take])]
    simp only [List.map_cons, List.reverse_cons, List.append_assoc, List.singleton_append]
    rw [take_append_take]

/-- C9: after the calls of `Add` for the documents `adds` (with the times read by the
calls) on a new ring of capacity `c`, the ring holds exactly the first `c` of the
added entries taken newest first, which are `min n c` entries for `n` calls; in
particular after `c + 1` calls the entry of the first call is absent and the ring
holds the entries of the `c` later calls, newest first. -/
theorem AddAll_new_ring (c : Nat) (adds : List (Time × Obj)) :
    ∃ r, (NewThsObjs c).AddAll adds = some r
      ∧ r.max = c
      ∧ r.o = ((adds.map (fun x => ObjTime.mk x.1 x.2)).reverse).take c
      ∧ r.o.length = min adds.length c
      ∧ (∀ first rest, adds = first :: rest → rest.length = c →
          r.o = (rest.map (fun x => ObjTime.mk x.1 x.2)).reverse) := by
  refine ⟨_, AddAll_eq_take c adds [] (Nat.zero_le _), rfl, by simp, by simp [Nat.min_comm], ?_⟩
  rintro first rest rfl hlen
  simp only [List.append_nil, List.map_cons, List.reverse_cons]
  rw [List.take_append_of_le_length (by simp [hlen])]
  exact List.take_of_length_le (by simp [hlen])

/-- Witness of C9: capacity 2 and three calls; the first entry is gone, the two later
ones are held newest first. -/
theorem AddAll_new_ring_witness :
    (NewThsObjs 2).AddAll [(⟨1, 0⟩, Obj.zero), (⟨2, 0⟩, Obj.one), (⟨3, 0⟩, Obj.zero)]
      = some ⟨[⟨⟨3, 0⟩, Obj.zero⟩, ⟨⟨2, 0⟩, Obj.one⟩], 2⟩ := by
  obtain ⟨r, hr, hmax, -, -, h⟩ :=
    AddAll_new_ring 2 [(⟨1, 0⟩, Obj.zero), (⟨2, 0⟩, Obj.one), (⟨3, 0⟩, Obj.zero)]
  have ho := h _ _ rfl rfl
  refine hr.trans ?_
  cases r
  simp only at hmax ho
  simp [hmax, ho]

/-- C10: the length of the history is at most the capacity, initially and after every
`Add` from a state of which that holds; `Add` does not panic from such a state, keeps
`max`, and its result is the new entry followed by a prefix of the old entries, so
the entries it retains keep their values and their relative order. -/
theorem Add_length_invariant (c : Nat) :
    ((NewThsObjs c).o.length : Int) ≤ (NewThsObjs c).max
      ∧ ∀ (r : ThsObjs) (now : Time) (newO : Obj), (r.o.length : Int) ≤ r.max →
          ∃ r', r.Add now newO = some r'
            ∧ r'.max = r.max
            ∧ (r'.o.length : Int) ≤ r'.max
            ∧ r'.o = (⟨now, newO⟩ :: r.o).take r.max.toNat
            ∧ r'.o.tail <+: r.o := by
  refine ⟨by simp [NewThsObjs], ?_⟩
  intro r now newO hinv
  have hmax : 0 ≤ r.max := le_trans (Int.ofNat_nonneg _) hinv
  refine ⟨_, Add_eq_take r now newO hmax, rfl, ?_, rfl, ?_⟩
  · simp only [List.length_take]
    omega
  · cases hm : r.max.toNat with
    | zero => simp
    | succ k => simpa using List.take_prefix k r.o

/-- Witness of C10: a full ring of capacity 2; `Add` evicts the oldest entry and keeps
the other one unchanged behind the new entry. -/
theorem Add_length_invariant_witness :
    ThsObjs.Add ⟨[⟨⟨2, 0⟩, Obj.one⟩, ⟨⟨1, 0⟩, Obj.zero⟩], 2⟩ ⟨3, 0⟩ Obj.zero
      = some ⟨[⟨⟨3, 0⟩, Obj.zero⟩, ⟨⟨2, 0⟩, Obj.one⟩], 2⟩ := by
  obtain ⟨r', hr, hmax, -, ho, -⟩ :=
    (Add_length_invariant 2).2 ⟨[⟨⟨2, 0⟩, Obj.one⟩, ⟨⟨1, 0⟩, Obj.zero⟩], 2⟩ ⟨3, 0⟩ Obj.zero
      (by decide)
  rw [hr]
  cases r'
  simp only at hmax ho
  simp [hmax, ho]

/-! ## Querying the history -/

theorem Time.Before_eq_After (t u : Time) : t.Before u = u.After t := by
  simp only [Time.Before, Time.After, decide_eq_decide]
  constructor <;> (intro h; omega)

theorem Time.not_After_self (t : Time) : t.After t = false := by
  simp [Time.After]

theorem GetNotNewerThan_loop_none (t : Time) (os : List ObjTime) :
    GetNotNewerThan.loop t os = none ↔ ∀ o ∈ os, o.T.After t = true := by
  induction os with
  | nil => simp [GetNotNewerThan.loop]
  | cons o os ih =>
    by_cases h : o.T.After t = true
    · simp [GetNotNewerThan.loop, h, ih]
    · simp [GetNotNewerThan.loop, h]

theorem GetNotNewerThan_loop_some (t : Time) (os : List ObjTime) (res : ObjTime)
    (h : GetNotNewerThan.loop t os = some res) : res ∈ os ∧ res.T.After t = false := by
  induction os with
  | nil => simp [GetNotNewerThan.loop] at h
  | cons o os ih =>
    by_cases ho : o.T.After t = true
    · simp only [GetNotNewerThan.loop, ho, if_true] at h
      exact ⟨List.mem_cons_of_mem _ (ih h).1, (ih h).2⟩
    · simp only [GetNotNewerThan.loop, ho] at h
      simp only [Bool.false_eq_true, if_false, Option.some.injEq] at h
      subst h
      exact ⟨List.mem_cons_self _ _, by simpa using ho⟩

/-- In a history in newest-first order the loop returns an entry that no entry not
after `t` is newer than. -/
theorem GetNotNewerThan_loop_newest (t : Time) (os : List ObjTime) (res : ObjTime)
    (hsorted : os.Pairwise (fun a b => b.T.After a.T = false))
    (h : GetNotNewerThan.loop t os = some res) :
    ∀ e ∈ os, e.T.After t = false → res.T.Before e.T = false := by
  induction os with
  | nil => simp
  | cons o os ih =>
    rw [List.pairwise_cons] at hsorted
    intro e he het
    by_cases ho : o.T.After t = true
    · simp only [GetNotNewerThan.loop, ho, if_true] at h
      rcases List.mem_cons.mp he with rfl | he'
      · rw [ho] at het; cases het
      · exact ih hsorted.2 h e he' het
    · simp only [GetNotNewerThan.loop, ho] at h
      simp only [Bool.false_eq_true, if_false, Option.some.injEq] at h
      subst h
      rcases List.mem_cons.mp he with rfl | he'
      · rw [Time.Before_eq_After, Time.not_After_self]
      · rw [Time.Before_eq_After]
        exact hsorted.1 e he'

/-- When some entry is not after `t`, `GetNotNewerThan` returns the first such entry. -/
theorem GetNotNewerThan_of_exists (r : ThsObjs) (t : Time)
    (h : ∃ e ∈ r.o, e.T.After t = false) :
    GetNotNewerThan.loop t r.o = some (r.GetNotNewerThan t) := by
  cases hl : GetNotNewerThan.loop t r.o with
  | none =>
    obtain ⟨e, he, het⟩ := h
    rw [(GetNotNewerThan_loop_none t r.o).mp hl e he] at het
    cases het
  | some res => simp [ThsObjs.GetNotNewerThan, hl]

/-- When every entry is after `t`, `GetNotNewerThan` returns the last entry. -/
theorem GetNotNewerThan_of_all_after (r : ThsObjs) (t : Time) (hne : r.o ≠ [])
    (h : ∀ e ∈ r.o, e.T.After t = true) :
    r.GetNotNewerThan t = r.o.getLast hne := by
  have hl := (GetNotNewerThan_loop_none t r.o).mpr h
  have hlen : r.o.length ≠ 0 := by
    intro h0; exact hne (List.length_eq_zero.mp h0)
  simp only [ThsObjs.GetNotNewerThan, hl, hlen, if_false]
  rw [List.getLast_eq_getElem, List.getD_eq_getElem?_getD, List.getElem?_eq_getElem (by omega)]
  rfl

theorem GetNotNewerThan_nil (max : Int) (t : Time) :
    (ThsObjs.mk [] max).GetNotNewerThan t = ObjTime.zero := by
  simp [ThsObjs.GetNotNewerThan, GetNotNewerThan.loop]

/-- C11: in a history whose entries are in newest-first order (no entry is after an
entry before it in the list), when some entry is not after `t`, `GetNotNewerThan t`
returns an entry of the history that is not after `t` and is not before any entry
that is not after `t`: the newest snapshot not newer than `t`. -/
theorem GetNotNewerThan_newest_not_newer (r : ThsObjs) (t : Time)
    (hsorted : r.o.Pairwise (fun a b => b.T.After a.T = false))
    (h : ∃ e ∈ r.o, e.T.After t = false) :
    r.GetNotNewerThan t ∈ r.o
      ∧ (r.GetNotNewerThan t).T.After t = false
      ∧ ∀ e ∈ r.o, e.T.After t = false → (r.GetNotNewerThan t).T.Before e.T = false := by
  have hl := GetNotNewerThan_of_exists r t h
  exact ⟨(GetNotNewerThan_loop_some t r.o _ hl).1, (GetNotNewerThan_loop_some t r.o _ hl).2,
    GetNotNewerThan_loop_newest t r.o _ hsorted hl⟩

/-- Witness of C11: stamps 5.000000001 s, 4.000000001 s and 3 s, queried at 5 s: the
entry of 4.000000001 s is returned. -/
theorem GetNotNewerThan_newest_not_newer_witness :
    (ThsObjs.mk [⟨⟨5, 1⟩, Obj.one⟩, ⟨⟨4, 1⟩, Obj.zero⟩, ⟨⟨3, 0⟩, Obj.zero⟩] 10).GetNotNewerThan ⟨5, 0⟩
        = ⟨⟨4, 1⟩, Obj.zero⟩
      ∧ ((ThsObjs.mk [⟨⟨5, 1⟩, Obj.one⟩, ⟨⟨4, 1⟩, Obj.zero⟩, ⟨⟨3, 0⟩, Obj.zero⟩] 10).GetNotNewerThan
          ⟨5, 0⟩).T.After ⟨5, 0⟩ = false :=
  ⟨by decide,
    (GetNotNewerThan_newest_not_newer
      (ThsObjs.mk [⟨⟨5, 1⟩, Obj.one⟩, ⟨⟨4, 1⟩, Obj.zero⟩, ⟨⟨3, 0⟩, Obj.zero⟩] 10) ⟨5, 0⟩
      (by decide) (by decide)).2.1⟩

/-- C12: in a non-empty history, when `t` is strictly before the stamp of every entry,
`GetNotNewerThan t` returns the last (oldest retained) entry; its stamp is strictly
after `t`, and it is not the zero-value snapshot unless `t` is before the zero time. -/
theorem GetNotNewerThan_older_than_all (r : ThsObjs) (t : Time) (hne : r.o ≠ [])
    (h : ∀ e ∈ r.o, t.Before e.T = true) :
    r.GetNotNewerThan t = r.o.getLast hne
      ∧ (r.GetNotNewerThan t).T.After t = true
      ∧ (Time.zero.After t = false → r.GetNotNewerThan t ≠ ObjTime.zero) := by
  have hall : ∀ e ∈ r.o, e.T.After t = true := by
    intro e he
    rw [← Time.Before_eq_After]
    exact h e he
  have hres := GetNotNewerThan_of_all_after r t hne hall
  have hafter : (r.GetNotNewerThan t).T.After t = true := by
    rw [hres]
    exact hall _ (List.getLast_mem hne)
  refine ⟨hres, hafter, ?_⟩
  intro hz heq
  rw [heq] at hafter
  rw [show ObjTime.zero.T = Time.zero from rfl, hz] at hafter
  cases hafter

/-- Witness of C12: stamps 5 s and 4 s, queried at 3 s: the entry of 4 s is returned. -/
theorem GetNotNewerThan_older_than_all_witness :
    (ThsObjs.mk [⟨⟨5, 0⟩, Obj.one⟩, ⟨⟨4, 0⟩, Obj.zero⟩] 10).GetNotNewerThan ⟨3, 0⟩
      = ⟨⟨4, 0⟩, Obj.zero⟩ :=
  (GetNotNewerThan_older_than_all (ThsObjs.mk [⟨⟨5, 0⟩, Obj.one⟩, ⟨⟨4, 0⟩, Obj.zero⟩] 10) ⟨3, 0⟩
    (by decide) (by decide)).1

/-- C13: for every time `t`, `GetNotNewerThan t` on an empty history (in particular on
a new one) returns the zero-value snapshot: the zero stamp and the zero-value
document. -/
theorem GetNotNewerThan_empty (max : Int) (t : Time) :
    (ThsObjs.mk [] max).GetNotNewerThan t = ObjTime.zero
      ∧ (NewThsObjs max).GetNotNewerThan t = ObjTime.zero
      ∧ ObjTime.zero = ⟨Time.zero, Obj.zero⟩ :=
  ⟨GetNotNewerThan_nil max t, GetNotNewerThan_nil max t, rfl⟩

/-! ## Candidate tags -/

/-- Setting a key of a map whose values are a function of their keys adds the entry
(or leaves the map as it is, when the key is already there). -/
theorem ETagMap.mem_set (f : String → Time) (ts : ETagMap) (k : String) (x : String × Time)
    (hts : ∀ y ∈ ts, y.2 = f y.1) :
    x ∈ ts.set k (f k) ↔ x = (k, f k) ∨ x ∈ ts := by
  induction ts with
  | nil => simp [ETagMap.set]
  | cons e rest ih =>
    obtain ⟨k', v'⟩ := e
    have hv' : v' = f k' := hts (k', v') (List.mem_cons_self _ _)
    have hrest : ∀ y ∈ rest, y.2 = f y.1 := fun y hy => hts y (List.mem_cons_of_mem _ hy)
    by_cases hk : k' = k
    · subst hk
      subst hv'
      simp only [ETagMap.set, if_true, List.mem_cons]
      tauto
    · simp only [ETagMap.set, hk, if_false, List.mem_cons, ih hrest]
      tauto

theorem ETagTimes.entry_valid (c : String) (x : String × Time)
    (h : ETagTimes.entry c = some x) : ParseETag x.1 = (x.2, none) := by
  unfold ETagTimes.entry at h
  split at h
  · cases h
  · split at h
    · rename_i inner _
      split at h
      · rename_i t ht
        cases h
        exact ht
      · cases h
    · cases h

theorem ETagTimes_foldl_mem (cands : List String) :
    ∀ (acc : ETagMap), (∀ y ∈ acc, y.2 = (ParseETag y.1).1) → ∀ x,
      (x ∈ cands.foldl
          (fun ts etag =>
            match ETagTimes.entry etag with
            | some (etag, etagT) => ETagMap.set ts etag etagT
            | none => ts) acc
        ↔ x ∈ acc ∨ ∃ c ∈ cands, ETagTimes.entry c = some x) := by
  induction cands with
  | nil => intro acc _ x; simp
  | cons c cs ih =>
    intro acc hacc x
    simp only [List.foldl_cons, List.mem_cons, exists_eq_or_imp]
    cases hc : ETagTimes.entry c with
    | none =>
      simp only [reduceCtorEq, false_or]
      exact ih acc hacc x
    | some e =>
      obtain ⟨k, v⟩ := e
      have hv : v = (ParseETag k).1 := by
        have := ETagTimes.entry_valid c (k, v) hc
        simp only at this
        rw [this]
      subst hv
      have hmem := fun y => ETagMap.mem_set (fun k => (ParseETag k).1) acc k y hacc
      simp only at hmem
      rw [ih (ETagMap.set acc k (ParseETag k).1)
        (fun y hy => by
          rcases (hmem y).mp hy with rfl | hy
          · rfl
          · exact hacc y hy) x]
      rw [hmem x]
      simp only [Option.some.injEq]
      constructor
      · rintro ((h | h) | h)
        · exact Or.inr (Or.inl h.symm)
        · exact Or.inl h
        · exact Or.inr (Or.inr h)
      · rintro (h | h | h)
        · exact Or.inl (Or.inr h)
        · exact Or.inl (Or.inl h.symm)
        · exact Or.inr h

/-- The map `ETagTimes` builds holds exactly the entries of the candidates the loop
body accepts. -/
theorem mem_ETagTimes (cands : List String) (x : String × Time) :
    x ∈ ETagTimes cands ↔ ∃ c ∈ cands, ETagTimes.entry c = some x := by
  unfold ETagTimes
  rw [ETagTimes_foldl_mem cands [] (by simp) x]
  simp

theorem ParseInt_isInt64 (s : String) (i : Int) (h : ParseInt s = some i) : isInt64 i := by
  unfold ParseInt at h
  unfold isInt64
  cases hd : s.data with
  | nil => simp [hd] at h
  | cons c cs =>
    simp only [hd] at h
    generalize (if c = '+' ∨ c = '-' then cs else c :: cs) = digits at h
    by_cases hnil : digits = []
    · simp [hnil] at h
    · simp only [hnil, if_false] at h
      cases hp : parseDigits 0 digits with
      | none => simp [hp] at h
      | some un =>
        simp only [hp] at h
        by_cases hneg : c = '-'
        · simp only [hneg, not_true_eq_false, false_and, if_false, true_and, if_true] at h
          split_ifs at h with h3
          simp only [Option.some.injEq] at h
          omega
        · simp only [hneg, not_false_eq_true, true_and, false_and, if_false] at h
          split_ifs at h with h2
          simp only [Option.some.injEq] at h
          omega

theorem tdiv_billion (i : Int) :
    i.tdiv 1000000000 = if 0 ≤ i then i / 1000000000 else -((-i) / 1000000000) := by
  split
  · exact Int.tdiv_eq_ediv (by assumption) (by decide)
  · rw [← Int.tdiv_eq_ediv (by omega) (by decide), Int.neg_tdiv, neg_neg]

/-- Every time `ParseETag` returns without error is after the zero time. -/
theorem ParseETag_After_zero (s : String) (t : Time) (h : ParseETag s = (t, none)) :
    t.After Time.zero = true := by
  unfold ParseETag at h
  cases hp : ParseInt s with
  | none => rw [hp] at h; simp at h
  | some i =>
    rw [hp] at h
    simp only [Prod.mk.injEq, and_true] at h
    subst h
    have hi := ParseInt_isInt64 s i hp
    unfold isInt64 at hi
    norm_num at hi
    unfold Time.Unix Time.After Time.zero
    norm_num
    rw [tdiv_billion]
    split_ifs <;> simp <;> omega

theorem Time.not_After_trans (a b c : Time) (h1 : a.After b = false) (h2 : b.After c = false) :
    a.After c = false := by
  simp only [Time.After, decide_eq_false_iff_not] at *
  omega

theorem Time.After_of_After_of_not_After (a b c : Time) (h1 : a.After b = true)
    (h2 : a.After c = false) : c.After b = true ∧ b.After c = false := by
  simp only [Time.After, decide_eq_false_iff_not, decide_eq_true_eq] at *
  omega

/-- What the loop of `LatestETag` computes from the values `(e0, t0, f0)`: a time that
no entry and not `t0` is after; it is either the start value (no entry is after `t0`)
or an entry after `t0`, with `found` set. -/
theorem LatestETag_loop_spec (iter : List (String × Time)) :
    ∀ (e0 : String) (t0 : Time) (f0 : Bool),
      t0.After (LatestETag.loop (e0, t0, f0) iter).2.1 = false
      ∧ (∀ x ∈ iter, x.2.After (LatestETag.loop (e0, t0, f0) iter).2.1 = false)
      ∧ ((LatestETag.loop (e0, t0, f0) iter = (e0, t0, f0) ∧ ∀ x ∈ iter, x.2.After t0 = false)
          ∨ ((LatestETag.loop (e0, t0, f0) iter).2.2 = true
              ∧ ((LatestETag.loop (e0, t0, f0) iter).1,
                  (LatestETag.loop (e0, t0, f0) iter).2.1) ∈ iter
              ∧ (LatestETag.loop (e0, t0, f0) iter).2.1.After t0 = true)) := by
  induction iter with
  | nil =>
    intro e0 t0 f0
    simp [LatestETag.loop, Time.not_After_self]
  | cons x rest ih =>
    intro e0 t0 f0
    obtain ⟨k, v⟩ := x
    by_cases hv : v.After t0 = true
    · simp only [LatestETag.loop, hv, if_true]
      obtain ⟨hA, hB, hC⟩ := ih k v true
      have hord := Time.After_of_After_of_not_After v t0 _ hv hA
      refine ⟨hord.2, ?_, Or.inr ?_⟩
      · intro y hy
        rcases List.mem_cons.mp hy with rfl | hy
        · exact hA
        · exact hB y hy
      · rcases hC with ⟨heq, _⟩ | ⟨hf, hmem, _⟩
        · rw [heq]
          exact ⟨rfl, List.mem_cons_self _ _, hv⟩
        · exact ⟨hf, List.mem_cons_of_mem _ hmem, hord.1⟩
    · have hv' : v.After t0 = false := by simpa using hv
      simp only [LatestETag.loop, hv', Bool.false_eq_true, if_false]
      obtain ⟨hA, hB, hC⟩ := ih e0 t0 f0
      refine ⟨hA, ?_, ?_⟩
      · intro y hy
        rcases List.mem_cons.mp hy with rfl | hy
        · exact Time.not_After_trans _ _ _ hv' hA
        · exact hB y hy
      · rcases hC with ⟨heq, hall⟩ | ⟨hf, hmem, hafter⟩
        · refine Or.inl ⟨heq, ?_⟩
          intro y hy
          rcases List.mem_cons.mp hy with rfl | hy
          · exact hv'
          · exact hall y hy
        · exact Or.inr ⟨hf, List.mem_cons_of_mem _ hmem, hafter⟩

/-- `LatestETag` on the entries of `ETagTimes candidates`, in whatever order the
runtime yields them. -/
theorem LatestETag_ETagTimes_spec (candidates : List String) (iter : List (String × Time))
    (hiter : iter.Perm (ETagTimes candidates)) :
    ((LatestETag iter).2.2 = true ↔ ∃ c ∈ candidates, ∃ e, ETagTimes.entry c = some e)
      ∧ ((LatestETag iter).2.2 = true →
          (∃ c ∈ candidates,
              ETagTimes.entry c = some ((LatestETag iter).1, (LatestETag iter).2.1))
            ∧ ∀ c ∈ candidates, ∀ e, ETagTimes.entry c = some e →
                e.2.After (LatestETag iter).2.1 = false)
      ∧ ((LatestETag iter).2.2 = false → LatestETag iter = ("", Time.zero, false)) := by
  have hmem : ∀ x, x ∈ iter ↔ ∃ c ∈ candidates, ETagTimes.entry c = some x := fun x =>
    (hiter.mem_iff).trans (mem_ETagTimes candidates x)
  obtain ⟨_, hB, hC⟩ := LatestETag_loop_spec iter "" Time.zero false
  have hmax : ∀ c ∈ candidates, ∀ e, ETagTimes.entry c = some e →
      e.2.After (LatestETag iter).2.1 = false :=
    fun c hc e he => hB e ((hmem e).mpr ⟨c, hc, he⟩)
  refine ⟨⟨?_, ?_⟩, ?_, ?_⟩
  · intro hf
    rcases hC with ⟨heq, _⟩ | ⟨_, hin, _⟩
    · rw [LatestETag, heq] at hf; cases hf
    · obtain ⟨c, hc, he⟩ := (hmem _).mp hin
      exact ⟨c, hc, _, he⟩
  · rintro ⟨c, hc, e, he⟩
    rcases hC with ⟨_, hall⟩ | ⟨hf, _, _⟩
    · have h1 := hall e ((hmem e).mpr ⟨c, hc, he⟩)
      rw [ParseETag_After_zero e.1 e.2 (ETagTimes.entry_valid c e he)] at h1
      cases h1
    · exact hf
  · intro hf
    rcases hC with ⟨heq, _⟩ | ⟨_, hin, _⟩
    · rw [LatestETag, heq] at hf; cases hf
    · exact ⟨(hmem _).mp hin, hmax⟩
  · intro hf
    rcases hC with ⟨heq, _⟩ | ⟨hf', _, _⟩
    · exact heq
    · rw [LatestETag, hf'] at hf; cases hf

/-- The candidates of the header `"1","not-a-number","100"`: the latest is `100`. -/
theorem LatestETag_example (iter : List (String × Time))
    (hiter : iter.Perm (ETagTimes (SplitComma "\"1\",\"not-a-number\",\"100\""))) :
    LatestETag iter = ("100", ⟨0, 100⟩, true) := by
  obtain ⟨hfound, hsel, _⟩ := LatestETag_ETagTimes_spec _ iter hiter
  have hsplit : SplitComma "\"1\",\"not-a-number\",\"100\""
      = ["\"1\"", "\"not-a-number\"", "\"100\""] := by decide
  have h1 : ETagTimes.entry "\"1\"" = some ("1", ⟨0, 1⟩) := by decide
  have h2 : ETagTimes.entry "\"not-a-number\"" = none := by decide
  have h3 : ETagTimes.entry "\"100\"" = some ("100", ⟨0, 100⟩) := by decide
  rw [hsplit] at hfound hsel
  have hf : (LatestETag iter).2.2 = true :=
    hfound.mpr ⟨"\"100\"", by simp, _, h3⟩
  obtain ⟨⟨c, hc, he⟩, hmax⟩ := hsel hf
  have hmax3 := hmax "\"100\"" (by simp) _ h3
  simp only [List.mem_cons, List.mem_singleton, List.not_mem_nil, or_false] at hc
  rcases hc with rfl | rfl | rfl
  · rw [h1] at he
    simp only [Option.some.injEq, Prod.mk.injEq] at he
    rw [← he.2] at hmax3
    exact absurd hmax3 (by decide)
  · rw [h2] at he; cases he
  · rw [h3] at he
    simp only [Option.some.injEq, Prod.mk.injEq] at he
    apply Prod.ext
    · exact he.1.symm
    · apply Prod.ext
      · exact he.2.symm
      · exact hf

/-- What the code does with a list of candidates, for every order in which the
runtime yields the entries of the map: `LatestETag (ETagTimes candidates)` reports
`found` exactly when the loop body of `ETagTimes` accepts some candidate (one of at
least two bytes that, without its first and last byte, `ParseETag` accepts); it then
selects the tag and stamp of an accepted candidate, and no accepted candidate has a
later stamp. When no candidate is accepted the result is `("", zero time, false)`.
For the header `"1","not-a-number","100"` the selected baseline is tag `100`, 100 ns
after the epoch. -/
theorem LatestETag_ETagTimes (candidates : List String) (iter : List (String × Time))
    (hiter : iter.Perm (ETagTimes candidates)) :
    ((LatestETag iter).2.2 = true ↔ ∃ c ∈ candidates, ∃ e, ETagTimes.entry c = some e)
      ∧ ((LatestETag iter).2.2 = true →
          (∃ c ∈ candidates,
              ETagTimes.entry c = some ((LatestETag iter).1, (LatestETag iter).2.1))
            ∧ ∀ c ∈ candidates, ∀ e, ETagTimes.entry c = some e →
                e.2.After (LatestETag iter).2.1 = false)
      ∧ ((LatestETag iter).2.2 = false → LatestETag iter = ("", Time.zero, false))
      ∧ (candidates = SplitComma "\"1\",\"not-a-number\",\"100\"" →
          LatestETag iter = ("100", Time.Unix 0 100, true)) := by
  obtain ⟨h1, h2, h3⟩ := LatestETag_ETagTimes_spec candidates iter hiter
  refine ⟨h1, h2, h3, ?_⟩
  rintro rfl
  exact LatestETag_example iter hiter

/-- The header `"1","not-a-number","100"`, the entries taken in the order in which
they were stored: the selected baseline is tag `100`. -/
theorem LatestETag_ETagTimes_witness :
    LatestETag (ETagTimes (SplitComma "\"1\",\"not-a-number\",\"100\""))
      = ("100", Time.Unix 0 100, true) :=
  (LatestETag_ETagTimes (SplitComma "\"1\",\"not-a-number\",\"100\"")
    (ETagTimes (SplitComma "\"1\",\"not-a-number\",\"100\"")) (List.Perm.refl _)).2.2.2 rfl

/-- C14, at the failing input: the candidates of the header `"1",x100y` are the quoted
tag `"1"` and the text `x100y`, which is not quoted and so is malformed ("etags must
be quoted"). `ETagTimes` strips the first and the last byte of a candidate without
looking at them, so `x100y` is stored as tag `100`; it is not ignored, and in either
order of the entries `LatestETag` selects it, not the stamp 1 ns of the one
well-formed candidate. In the same way the unquoted candidate `12345` is stored as
tag `234`. -/
theorem ETagTimes_accepts_unquoted_candidate :
    SplitComma "\"1\",x100y" = ["\"1\"", "x100y"]
      ∧ ETagTimes ["\"1\"", "x100y"] = [("1", ⟨0, 1⟩), ("100", ⟨0, 100⟩)]
      ∧ LatestETag [("1", ⟨0, 1⟩), ("100", ⟨0, 100⟩)] = ("100", ⟨0, 100⟩, true)
      ∧ LatestETag [("100", ⟨0, 100⟩), ("1", ⟨0, 1⟩)] = ("100", ⟨0, 100⟩, true)
      ∧ ETagTimes ["12345"] = [("234", ⟨0, 234⟩)] := by
  decide

/-! ## The negotiation of deltaserver -/

theorem isFULL_write (w : ResponseWriter) (obj : ObjTime)
    (hw : w = ((ResponseWriter.new.Set HeaderETag (GenerateETag obj.T)).Set
      HeaderContentType MimeTypeJSON).Write (Body.document obj.O)) : isFULL w obj := by
  subst hw
  exact ⟨rfl, rfl, rfl, rfl⟩

theorem isFULL_write' (w : ResponseWriter) (obj : ObjTime)
    (hw : w = ((ResponseWriter.new.Set "ETag" (GenerateETag obj.T)).Set
      "Content-Type" MimeTypeJSON).Write (Body.document obj.O)) : isFULL w obj := by
  subst hw
  exact ⟨rfl, rfl, rfl, rfl⟩

theorem deltaserver_GetHandler_full (order : ETagMap → List (String × Time)) (obj : ObjTime)
    (objHist : ThsObjs) (req : Header) (h : (deltaserver.baseline order req).2.2 = false) :
    isFULL (deltaserver.GetHandler order obj objHist .new req) obj := by
  apply isFULL_write
  simp only [deltaserver.GetHandler, h, Bool.not_false, if_true]

theorem deltaserver_GetHandler_notModified (order : ETagMap → List (String × Time))
    (obj : ObjTime) (objHist : ThsObjs) (req : Header)
    (hf : (deltaserver.baseline order req).2.2 = true)
    (h : obj.T.After (deltaserver.baseline order req).2.1 = false) :
    deltaserver.GetHandler order obj objHist .new req
      = ResponseWriter.new.WriteHeader StatusNotModified := by
  simp only [deltaserver.GetHandler, hf, h, Bool.not_true, Bool.not_false, if_true,
    Bool.false_eq_true, if_false]

theorem deltaserver_GetHandler_exhausted (order : ETagMap → List (String × Time))
    (obj : ObjTime) (objHist : ThsObjs) (req : Header)
    (hf : (deltaserver.baseline order req).2.2 = true)
    (h : obj.T.After (deltaserver.baseline order req).2.1 = true)
    (hh : (objHist.GetNotNewerThan (deltaserver.baseline order req).2.1).T.After
      (deltaserver.baseline order req).2.1 = true) :
    isFULL (deltaserver.GetHandler order obj objHist .new req) obj := by
  apply isFULL_write
  simp only [deltaserver.GetHandler, hf, h, hh, Bool.not_true, if_true,
    Bool.false_eq_true, if_false]

theorem deltaserver_GetHandler_patch (order : ETagMap → List (String × Time))
    (obj : ObjTime) (objHist : ThsObjs) (req : Header)
    (hf : (deltaserver.baseline order req).2.2 = true)
    (h : obj.T.After (deltaserver.baseline order req).2.1 = true)
    (hh : (objHist.GetNotNewerThan (deltaserver.baseline order req).2.1).T.After
      (deltaserver.baseline order req).2.1 = false) :
    isPATCH (deltaserver.GetHandler order obj objHist .new req) StatusIMUsed
        (objHist.GetNotNewerThan (deltaserver.baseline order req).2.1) obj
      ∧ (deltaserver.GetHandler order obj objHist .new req).sent.Get HeaderDeltaBase
          = "\"" ++ (deltaserver.baseline order req).1 ++ "\""
      ∧ (deltaserver.GetHandler order obj objHist .new req).sent.Get HeaderInstanceManipulation
          = InstanceManipulationValueJSONPatch := by
  simp only [deltaserver.GetHandler, hf, h, hh, Bool.not_true, if_true,
    Bool.false_eq_true, if_false]
  exact ⟨⟨rfl, rfl, rfl, rfl⟩, rfl, rfl⟩

/-! ## The negotiation of gmsetagserver -/

theorem gmsetagserver_GetHandler_full (ParseHTTPDate : String → Option Time) (obj : ObjTime)
    (objHist : ThsObjs) (req : Header)
    (h : gmsetagserver.gmsTime ParseHTTPDate req = some none) :
    ∃ w, gmsetagserver.GetHandler ParseHTTPDate obj objHist .new req = some w ∧ isFULL w obj := by
  have heq : gmsetagserver.GetHandler ParseHTTPDate obj objHist .new req
      = some (((ResponseWriter.new.Set "ETag" (GenerateETag obj.T)).Set
          "Content-Type" MimeTypeJSON).Write (Body.document obj.O)) := by
    simp only [gmsetagserver.GetHandler, h]
  exact ⟨_, heq, rfl, rfl, rfl, rfl⟩

theorem gmsetagserver_GetHandler_emptyPatch (ParseHTTPDate : String → Option Time)
    (obj : ObjTime) (objHist : ThsObjs) (req : Header) (claimed : Time)
    (h : gmsetagserver.gmsTime ParseHTTPDate req = some (some claimed))
    (hb : obj.T.Before claimed = true) :
    ∃ w, gmsetagserver.GetHandler ParseHTTPDate obj objHist .new req = some w
      ∧ isEmptyPatch w ∧ w.sent.Get HeaderETag = GenerateETag obj.T := by
  have heq : gmsetagserver.GetHandler ParseHTTPDate obj objHist .new req
      = some (((ResponseWriter.new.Set "Content-Type" MimeTypeJSONPatch).Set
          "ETag" (GenerateETag obj.T)).Write (Body.patch [])) := by
    simp only [gmsetagserver.GetHandler, h, hb, if_true]
  exact ⟨_, heq, ⟨rfl, rfl, rfl⟩, rfl⟩

theorem gmsetagserver_GetHandler_exhausted (ParseHTTPDate : String → Option Time)
    (obj : ObjTime) (objHist : ThsObjs) (req : Header) (claimed : Time)
    (h : gmsetagserver.gmsTime ParseHTTPDate req = some (some claimed))
    (hb : obj.T.Before claimed = false)
    (hh : (objHist.GetNotNewerThan claimed).T.After claimed = true) :
    ∃ w, gmsetagserver.GetHandler ParseHTTPDate obj objHist .new req = some w ∧ isFULL w obj := by
  have heq : gmsetagserver.GetHandler ParseHTTPDate obj objHist .new req
      = some (((ResponseWriter.new.Set "ETag" (GenerateETag obj.T)).Set
          "Content-Type" MimeTypeJSON).Write (Body.document obj.O)) := by
    simp only [gmsetagserver.GetHandler, h, hb, hh, if_true, Bool.false_eq_true, if_false]
  exact ⟨_, heq, rfl, rfl, rfl, rfl⟩

theorem gmsetagserver_GetHandler_patch (ParseHTTPDate : String → Option Time)
    (obj : ObjTime) (objHist : ThsObjs) (req : Header) (claimed : Time)
    (h : gmsetagserver.gmsTime ParseHTTPDate req = some (some claimed))
    (hb : obj.T.Before claimed = false)
    (hh : (objHist.GetNotNewerThan claimed).T.After claimed = false) :
    ∃ w, gmsetagserver.GetHandler ParseHTTPDate obj objHist .new req = some w
      ∧ isPATCH w StatusOK (objHist.GetNotNewerThan claimed) obj := by
  have heq : gmsetagserver.GetHandler ParseHTTPDate obj objHist .new req
      = some (((ResponseWriter.new.Set "ETag" (GenerateETag obj.T)).Set
          "Content-Type" MimeTypeJSONPatch).Write
            (Body.patch (CreatePatch (objHist.GetNotNewerThan claimed).O obj.O))) := by
    simp only [gmsetagserver.GetHandler, h, hb, hh, if_true, Bool.false_eq_true, if_false]
  exact ⟨_, heq, rfl, rfl, rfl, rfl⟩

theorem Time.Before_of_After (t u : Time) (h : t.After u = true) : t.Before u = false := by
  simp only [Time.Before, Time.After, decide_eq_false_iff_not, decide_eq_true_eq] at *
  omega

theorem isFULL_not_isPATCH (w : ResponseWriter) (obj : ObjTime) (h : isFULL w obj)
    (status : Nat) (baseline current : ObjTime) : ¬ isPATCH w status baseline current := by
  intro hp
  have h1 := h.2.1
  rw [hp.2.1] at h1
  simp at h1

theorem GetNotNewerThan_not_After (r : ThsObjs) (t : Time)
    (h : ∃ e ∈ r.o, e.T.After t = false) : (r.GetNotNewerThan t).T.After t = false :=
  (GetNotNewerThan_loop_some t r.o _ (GetNotNewerThan_of_exists r t h)).2

/-- When the handler of deltaserver has found a baseline, it is the tag and stamp of a
candidate of If-None-Match that decodes. -/
theorem deltaserver_baseline_found (order : ETagMap → List (String × Time))
    (horder : ∀ m, (order m).Perm m) (req : Header)
    (hf : (deltaserver.baseline order req).2.2 = true) :
    ParseETag (deltaserver.baseline order req).1 = ((deltaserver.baseline order req).2.1, none) := by
  simp only [deltaserver.baseline] at hf ⊢
  split_ifs at hf ⊢ with haim
  · obtain ⟨_, hsel, _⟩ := LatestETag_ETagTimes_spec _ _ (horder (ETagTimes
      (SplitComma (req.Get HeaderIfNoneMatch))))
    obtain ⟨⟨c, _, he⟩, _⟩ := hsel hf
    exact ETagTimes.entry_valid c _ he

/-- The header `Get-Modified-Since` makes the handler of gmsetagserver panic exactly
when it is a single double-quote character. -/
theorem gmsetagserver_gmsTime_eq_none_iff (ParseHTTPDate : String → Option Time)
    (req : Header) :
    gmsetagserver.gmsTime ParseHTTPDate req = none ↔ req.Get HeaderGetModifiedSince = "\"" := by
  unfold gmsetagserver.gmsTime
  generalize req.Get HeaderGetModifiedSince = gmsHeader
  obtain ⟨data⟩ := gmsHeader
  constructor
  · intro h
    simp only at h
    split_ifs at h with h1 h2
    · rcases data with _ | ⟨c, _ | ⟨d, cs⟩⟩
      · simp at h1
      · simp only [List.head?_cons, Option.some.injEq, List.getLast?_singleton] at h2
        rw [h2.1]
      · simp only [sliceEnds] at h
        split_ifs at h
        simp only at h
        split at h <;> cases h
    · split at h <;> cases h
  · intro h
    have hd : data = ['"'] := by
      have := congrArg String.data h
      exact this
    subst hd
    rfl

/-- Without `jsonpatch` among the values of `A-IM` the handler of deltaserver has no
baseline, whatever `If-None-Match` carries. -/
theorem deltaserver_baseline_without_jsonpatch (order : ETagMap → List (String × Time))
    (req : Header)
    (h : StrSliceToMap (SplitComma (req.Get HeaderAcceptInstanceManipulation))
      InstanceManipulationValueJSONPatch = false) :
    deltaserver.baseline order req = ("", Time.zero, false) := by
  simp only [deltaserver.baseline, h, Bool.false_eq_true, if_false]

/-- When no candidate of `If-None-Match` decodes the handler of deltaserver has no
baseline. -/
theorem deltaserver_baseline_without_candidate (order : ETagMap → List (String × Time))
    (horder : ∀ m, (order m).Perm m) (req : Header)
    (h : ∀ c ∈ SplitComma (req.Get HeaderIfNoneMatch), ETagTimes.entry c = none) :
    (deltaserver.baseline order req).2.2 = false := by
  simp only [deltaserver.baseline]
  split_ifs
  · obtain ⟨hfound, _, _⟩ := LatestETag_ETagTimes_spec _ _ (horder (ETagTimes
      (SplitComma (req.Get HeaderIfNoneMatch))))
    cases hf : (LatestETag (order (ETagTimes (SplitComma (req.Get HeaderIfNoneMatch))))).2.2 with
    | false => rfl
    | true =>
      obtain ⟨c, hc, e, he⟩ := hfound.mp hf
      rw [h c hc] at he
      cases he
  · rfl

/-! ## The negotiation decisions -/

/-- C15, at the failing input: the client of gmsetagserver claims, as a quoted tag, the
very stamp the store holds (5 s). `latestObj.T.Before(*gmsTime)` is false for equal
stamps, so the handler does not answer UNCHANGED: it looks into the history and
answers with the patch from the zero document to `Obj.one`, which is not empty. On
the same state deltaserver answers the same claim with 304 Not Modified. -/
theorem gmsetagserver_equal_stamp_is_not_unchanged :
    gmsetagserver.gmsTime noHTTPDate
        [(HeaderGetModifiedSince, "\"" ++ GenerateETag exampleStore.T ++ "\"")]
      = some (some exampleStore.T)
    ∧ gmsetagserver.GetHandler noHTTPDate exampleStore exampleHistory .new
        [(HeaderGetModifiedSince, "\"" ++ GenerateETag exampleStore.T ++ "\"")]
      = some ⟨[("Content-Type", "application/json-patch+json"), ("ETag", "5000000000")],
          some 200,
          [("Content-Type", "application/json-patch+json"), ("ETag", "5000000000")],
          [Body.patch [⟨"replace", "/foo-a/bar-a/baz-a", .int64 1⟩]]⟩
    ∧ isNotModified (deltaserver.GetHandler id exampleStore exampleHistory .new
        [(HeaderAcceptInstanceManipulation, "jsonpatch"),
         (HeaderIfNoneMatch, "\"" ++ GenerateETag exampleStore.T ++ "\"")]) := by
  decide

/-- C16: in both handlers, when a baseline is claimed, the stamp of the store is
strictly after it and the history holds a snapshot whose stamp is not after it, the
response is PATCH: the body is `CreatePatch baseline.O current.O` for the snapshot
`baseline = GetNotNewerThan claimed`, with the patch content type and the ETag
`GenerateETag` of the current stamp (status 226 IM Used from deltaserver, 200 from
gmsetagserver). -/
theorem PATCH_when_baseline_in_history (order : ETagMap → List (String × Time))
    (ParseHTTPDate : String → Option Time) (obj : ObjTime) (objHist : ThsObjs) (req : Header)
    (claimed : Time) (hcur : obj.T.After claimed = true)
    (hhist : ∃ e ∈ objHist.o, e.T.After claimed = false) :
    ((deltaserver.baseline order req).2 = (claimed, true) →
        isPATCH (deltaserver.GetHandler order obj objHist .new req) StatusIMUsed
          (objHist.GetNotNewerThan claimed) obj)
      ∧ (gmsetagserver.gmsTime ParseHTTPDate req = some (some claimed) →
          ∃ w, gmsetagserver.GetHandler ParseHTTPDate obj objHist .new req = some w
            ∧ isPATCH w StatusOK (objHist.GetNotNewerThan claimed) obj) := by
  have hbase := GetNotNewerThan_not_After objHist claimed hhist
  constructor
  · intro hb
    have h1 : (deltaserver.baseline order req).2.1 = claimed := by rw [hb]
    have h2 : (deltaserver.baseline order req).2.2 = true := by rw [hb]
    have := (deltaserver_GetHandler_patch order obj objHist req h2 (by rw [h1]; exact hcur)
      (by rw [h1]; exact hbase)).1
    rw [h1] at this
    exact this
  · intro hg
    exact gmsetagserver_GetHandler_patch ParseHTTPDate obj objHist req claimed hg
      (Time.Before_of_After _ _ hcur) hbase

/-- Witness of C16: the client claims the stamp 4.5 s; the store is at 5 s and the
history holds the zero document at 4.000000001 s; both handlers answer with the patch
from that snapshot. -/
theorem PATCH_when_baseline_in_history_witness :
    isPATCH (deltaserver.GetHandler id exampleStore exampleHistory .new
        [(HeaderAcceptInstanceManipulation, "jsonpatch"), (HeaderIfNoneMatch, "\"4500000000\""),
         (HeaderGetModifiedSince, "\"4500000000\"")]) StatusIMUsed
        (exampleHistory.GetNotNewerThan ⟨4, 500000000⟩) exampleStore
      ∧ exampleHistory.GetNotNewerThan ⟨4, 500000000⟩ = ⟨⟨4, 1⟩, Obj.zero⟩
      ∧ ∃ w, gmsetagserver.GetHandler noHTTPDate exampleStore exampleHistory .new
          [(HeaderAcceptInstanceManipulation, "jsonpatch"), (HeaderIfNoneMatch, "\"4500000000\""),
           (HeaderGetModifiedSince, "\"4500000000\"")] = some w
        ∧ isPATCH w StatusOK (exampleHistory.GetNotNewerThan ⟨4, 500000000⟩) exampleStore :=
  ⟨(PATCH_when_baseline_in_history id noHTTPDate exampleStore exampleHistory _ ⟨4, 500000000⟩
      (by decide) (by decide)).1 (by decide),
    by decide,
    (PATCH_when_baseline_in_history id noHTTPDate exampleStore exampleHistory _ ⟨4, 500000000⟩
      (by decide) (by decide)).2 (by decide)⟩

/-- C17: in both handlers, when a baseline is claimed, the stamp of the store is
strictly after it and every snapshot of a non-empty history has a stamp strictly
after it, the response is FULL (the serialized current document, the JSON content
type, ETag `GenerateETag` of the current stamp) and not PATCH. -/
theorem FULL_when_history_exhausted (order : ETagMap → List (String × Time))
    (ParseHTTPDate : String → Option Time) (obj : ObjTime) (objHist : ThsObjs) (req : Header)
    (claimed : Time) (hcur : obj.T.After claimed = true) (hne : objHist.o ≠ [])
    (hall : ∀ e ∈ objHist.o, e.T.After claimed = true) :
    ((deltaserver.baseline order req).2 = (claimed, true) →
        isFULL (deltaserver.GetHandler order obj objHist .new req) obj
          ∧ ∀ status baseline current,
              ¬ isPATCH (deltaserver.GetHandler order obj objHist .new req) status baseline current)
      ∧ (gmsetagserver.gmsTime ParseHTTPDate req = some (some claimed) →
          ∃ w, gmsetagserver.GetHandler ParseHTTPDate obj objHist .new req = some w
            ∧ isFULL w obj ∧ ∀ status baseline current, ¬ isPATCH w status baseline current) := by
  have hbase : (objHist.GetNotNewerThan claimed).T.After claimed = true := by
    rw [GetNotNewerThan_of_all_after objHist claimed hne hall]
    exact hall _ (List.getLast_mem hne)
  constructor
  · intro hb
    have h1 : (deltaserver.baseline order req).2.1 = claimed := by rw [hb]
    have h2 : (deltaserver.baseline order req).2.2 = true := by rw [hb]
    have hfull := deltaserver_GetHandler_exhausted order obj objHist req h2
      (by rw [h1]; exact hcur) (by rw [h1]; exact hbase)
    exact ⟨hfull, isFULL_not_isPATCH _ _ hfull⟩
  · intro hg
    obtain ⟨w, hw, hfull⟩ := gmsetagserver_GetHandler_exhausted ParseHTTPDate obj objHist req
      claimed hg (Time.Before_of_After _ _ hcur) hbase
    exact ⟨w, hw, hfull, isFULL_not_isPATCH _ _ hfull⟩

/-- Witness of C17: the client claims the stamp 3.5 s, older than both snapshots of the
history; both handlers answer with the full document. -/
theorem FULL_when_history_exhausted_witness :
    isFULL (deltaserver.GetHandler id exampleStore exampleHistory .new
        [(HeaderAcceptInstanceManipulation, "jsonpatch"), (HeaderIfNoneMatch, "\"3500000000\""),
         (HeaderGetModifiedSince, "\"3500000000\"")]) exampleStore
      ∧ ∃ w, gmsetagserver.GetHandler noHTTPDate exampleStore exampleHistory .new
          [(HeaderAcceptInstanceManipulation, "jsonpatch"), (HeaderIfNoneMatch, "\"3500000000\""),
           (HeaderGetModifiedSince, "\"3500000000\"")] = some w
        ∧ isFULL w exampleStore :=
  ⟨((FULL_when_history_exhausted id noHTTPDate exampleStore exampleHistory _ ⟨3, 500000000⟩
      (by decide) (by decide) (by decide)).1 (by decide)).1,
    by
      obtain ⟨w, hw, hfull, _⟩ :=
        (FULL_when_history_exhausted id noHTTPDate exampleStore exampleHistory
          [(HeaderAcceptInstanceManipulation, "jsonpatch"),
           (HeaderIfNoneMatch, "\"3500000000\""),
           (HeaderGetModifiedSince, "\"3500000000\"")] ⟨3, 500000000⟩
          (by decide) (by decide) (by decide)).2 (by decide)
      exact ⟨w, hw, hfull⟩⟩

/-- C18, as the code has it: with an empty history and a claimed baseline that the
stamp of the store is strictly after, the handlers do not recognise the zero-value
snapshot that `GetNotNewerThan` returns: its zero stamp is compared like any other,
and as the zero time is not after the claimed baseline (no stamp decoded from a tag
is before the zero time), the response is PATCH, computed against the zero-value
document. -/
theorem PATCH_against_zero_when_history_empty (order : ETagMap → List (String × Time))
    (ParseHTTPDate : String → Option Time) (obj : ObjTime) (max : Int) (req : Header)
    (claimed : Time) (hcur : obj.T.After claimed = true)
    (hzero : Time.zero.After claimed = false) :
    ((deltaserver.baseline order req).2 = (claimed, true) →
        isPATCH (deltaserver.GetHandler order obj ⟨[], max⟩ .new req) StatusIMUsed
          ObjTime.zero obj)
      ∧ (gmsetagserver.gmsTime ParseHTTPDate req = some (some claimed) →
          ∃ w, gmsetagserver.GetHandler ParseHTTPDate obj ⟨[], max⟩ .new req = some w
            ∧ isPATCH w StatusOK ObjTime.zero obj) := by
  have hnil := GetNotNewerThan_nil max claimed
  have hbase : ((ThsObjs.mk [] max).GetNotNewerThan claimed).T.After claimed = false := by
    rw [hnil]; exact hzero
  constructor
  · intro hb
    have h1 : (deltaserver.baseline order req).2.1 = claimed := by rw [hb]
    have h2 : (deltaserver.baseline order req).2.2 = true := by rw [hb]
    have := (deltaserver_GetHandler_patch order obj ⟨[], max⟩ req h2 (by rw [h1]; exact hcur)
      (by rw [h1]; exact hbase)).1
    rw [h1, hnil] at this
    exact this
  · intro hg
    have := gmsetagserver_GetHandler_patch ParseHTTPDate obj ⟨[], max⟩ req claimed hg
      (Time.Before_of_After _ _ hcur) hbase
    rw [hnil] at this
    exact this

/-- Witness of C18: the store of the example, an empty history of capacity 0 and the
claimed stamp 3.5 s. -/
theorem PATCH_against_zero_when_history_empty_witness :
    isPATCH (deltaserver.GetHandler id exampleStore ⟨[], 0⟩ .new
        [(HeaderAcceptInstanceManipulation, "jsonpatch"), (HeaderIfNoneMatch, "\"3500000000\"")])
      StatusIMUsed ObjTime.zero exampleStore :=
  (PATCH_against_zero_when_history_empty id noHTTPDate exampleStore 0
    [(HeaderAcceptInstanceManipulation, "jsonpatch"), (HeaderIfNoneMatch, "\"3500000000\"")]
    ⟨3, 500000000⟩ (by decide) (by decide)).1 (by decide)

/-- Counterexample to C18 as stated: the history is empty (capacity 0), the client of
deltaserver claims the stamp 3.5 s, older than the stamp 5 s of the store; the
response is not FULL but 226 IM Used with the patch from the zero-value document to
the current document. -/
theorem empty_history_response_is_patch :
    deltaserver.GetHandler id exampleStore (NewThsObjs 0) .new
        [(HeaderAcceptInstanceManipulation, "jsonpatch"), (HeaderIfNoneMatch, "\"3500000000\"")]
      = ⟨[("IM", "jsonpatch"), ("Delta-Base", "\"3500000000\""),
            ("Content-Type", "application/json-patch+json"), ("ETag", "5000000000")],
          some 226,
          [("IM", "jsonpatch"), ("Delta-Base", "\"3500000000\""),
            ("Content-Type", "application/json-patch+json"), ("ETag", "5000000000")],
          [Body.patch (CreatePatch Obj.zero exampleStore.O)]⟩
    ∧ CreatePatch Obj.zero exampleStore.O = [⟨"replace", "/foo-a/bar-a/baz-a", .int64 1⟩]
    ∧ ¬ isFULL (deltaserver.GetHandler id exampleStore (NewThsObjs 0) .new
        [(HeaderAcceptInstanceManipulation, "jsonpatch"), (HeaderIfNoneMatch, "\"3500000000\"")])
        exampleStore := by
  decide

/-- C19, at the failing input: the header `Get-Modified-Since` of the request to
gmsetagserver is a single double-quote character, which claims no usable baseline.
The first and the last byte are that quote, so the handler takes the header for a
quoted tag and evaluates `gmsHeader[1 : len(gmsHeader)-1]`, that is `gmsHeader[1:0]`:
it panics and sends no FULL response. -/
theorem gmsetagserver_single_quote_panics :
    gmsetagserver.gmsTime noHTTPDate [(HeaderGetModifiedSince, "\"")] = none
      ∧ gmsetagserver.GetHandler noHTTPDate exampleStore exampleHistory .new
          [(HeaderGetModifiedSince, "\"")] = none := by
  decide

/-- C20, as the code has it: in every PATCH response of deltaserver (status 226 IM
Used) the Delta-Base header is the quoted tag `etag` that `LatestETag` selected from
the candidates of If-None-Match, the tag the client claimed, which decodes to the
claimed stamp; the patch itself is computed from the snapshot
`GetNotNewerThan claimed`, whose stamp is not after the claimed stamp. -/
theorem DeltaBase_is_claimed_tag (order : ETagMap → List (String × Time))
    (horder : ∀ m, (order m).Perm m) (obj : ObjTime) (objHist : ThsObjs) (req : Header)
    (hpatch : (deltaserver.GetHandler order obj objHist .new req).status = some StatusIMUsed) :
    (deltaserver.GetHandler order obj objHist .new req).sent.Get HeaderDeltaBase
        = "\"" ++ (deltaserver.baseline order req).1 ++ "\""
      ∧ ParseETag (deltaserver.baseline order req).1
          = ((deltaserver.baseline order req).2.1, none)
      ∧ isPATCH (deltaserver.GetHandler order obj objHist .new req) StatusIMUsed
          (objHist.GetNotNewerThan (deltaserver.baseline order req).2.1) obj
      ∧ (objHist.GetNotNewerThan (deltaserver.baseline order req).2.1).T.After
          (deltaserver.baseline order req).2.1 = false := by
  cases hf : (deltaserver.baseline order req).2.2 with
  | false =>
    have h := (deltaserver_GetHandler_full order obj objHist req hf).1
    rw [h] at hpatch
    exact absurd hpatch (by decide)
  | true =>
    cases hcur : obj.T.After (deltaserver.baseline order req).2.1 with
    | false =>
      rw [deltaserver_GetHandler_notModified order obj objHist req hf hcur] at hpatch
      exact absurd hpatch (by decide)
    | true =>
      cases hbase : (objHist.GetNotNewerThan (deltaserver.baseline order req).2.1).T.After
          (deltaserver.baseline order req).2.1 with
      | true =>
        have h := (deltaserver_GetHandler_exhausted order obj objHist req hf hcur hbase).1
        rw [h] at hpatch
        exact absurd hpatch (by decide)
      | false =>
        obtain ⟨hp, hdb, _⟩ := deltaserver_GetHandler_patch order obj objHist req hf hcur hbase
        exact ⟨hdb, deltaserver_baseline_found order horder req hf, hp, rfl⟩

/-- Witness of C20: the client claims tag `4500000000`; the patch is computed from the
snapshot stamped 4.000000001 s and Delta-Base is the quoted claimed tag. -/
theorem DeltaBase_is_claimed_tag_witness :
    (deltaserver.GetHandler id exampleStore exampleHistory .new
        [(HeaderAcceptInstanceManipulation, "jsonpatch"),
         (HeaderIfNoneMatch, "\"4500000000\"")]).sent.Get HeaderDeltaBase
      = "\"" ++ (deltaserver.baseline id
          [(HeaderAcceptInstanceManipulation, "jsonpatch"),
           (HeaderIfNoneMatch, "\"4500000000\"")]).1 ++ "\"" :=
  (DeltaBase_is_claimed_tag id (fun m => List.Perm.refl m) exampleStore exampleHistory
    [(HeaderAcceptInstanceManipulation, "jsonpatch"), (HeaderIfNoneMatch, "\"4500000000\"")]
    (by decide)).1

/-- Counterexample to C20 as stated: the response is a PATCH computed from the
snapshot stamped 4.000000001 s, whose quoted Version Tag is `"4000000001"`, while
the Delta-Base header is `"4500000000"`, the tag the client claimed. -/
theorem DeltaBase_is_not_baseline_tag :
    (deltaserver.GetHandler id exampleStore exampleHistory .new
        [(HeaderAcceptInstanceManipulation, "jsonpatch"),
         (HeaderIfNoneMatch, "\"4500000000\"")]).status = some StatusIMUsed
      ∧ (deltaserver.GetHandler id exampleStore exampleHistory .new
        [(HeaderAcceptInstanceManipulation, "jsonpatch"),
         (HeaderIfNoneMatch, "\"4500000000\"")]).sent.Get HeaderDeltaBase = "\"4500000000\""
      ∧ "\"" ++ GenerateETag (exampleHistory.GetNotNewerThan ⟨4, 500000000⟩).T ++ "\""
          = "\"4000000001\""
      ∧ (deltaserver.GetHandler id exampleStore exampleHistory .new
        [(HeaderAcceptInstanceManipulation, "jsonpatch"),
         (HeaderIfNoneMatch, "\"4500000000\"")]).body
          = [Body.patch (CreatePatch (exampleHistory.GetNotNewerThan ⟨4, 500000000⟩).O
              exampleStore.O)] := by
  decide

/-! ## Faults in the baseline parsing -/

/-- The slice `etag[1 : len(etag)-1]` of `ETagTimes` is evaluated only for candidates
of at least two bytes, for which its bounds are in range. -/
theorem sliceEnds_ne_none_of_two_le_len (s : String) (h : 2 ≤ len s) : sliceEnds s ≠ none := by
  obtain ⟨data⟩ := s
  rcases data with _ | ⟨c, _ | ⟨d, cs⟩⟩
  · simp [len] at h
  · simp only [len, List.map_cons, List.map_nil, List.sum_cons, List.sum_nil, add_zero] at h
    simp only [sliceEnds]
    split_ifs <;> simp_all
  · simp only [sliceEnds]
    split_ifs <;> simp

/-- C21, at the failing input: the header `Get-Modified-Since` is a single double-quote
character, one byte long. The baseline parsing of gmsetagserver takes it for a quoted
tag and evaluates `gmsHeader[1 : len(gmsHeader)-1]` with the bounds `[1:0]`, which
faults (a slice-bounds panic): it yields neither a stamp nor "absent". `ETagTimes` of
deltaserver skips the same text as a candidate (it is shorter than two bytes). -/
theorem baseline_parsing_faults_on_single_quote :
    len "\"" = 1
      ∧ sliceEnds "\"" = none
      ∧ gmsetagserver.gmsTime exampleHTTPDate [(HeaderGetModifiedSince, "\"")] = none
      ∧ ETagTimes.entry "\"" = none
      ∧ ETagTimes ["\""] = [] := by
  decide

/-! ## One response for each request -/

theorem deltaserver_one_body (order : ETagMap → List (String × Time)) (obj : ObjTime)
    (objHist : ThsObjs) (req : Header) :
    (deltaserver.GetHandler order obj objHist .new req).body.length ≤ 1 := by
  simp only [deltaserver.GetHandler]
  split_ifs <;> simp [ResponseWriter.Write, ResponseWriter.WriteHeader, ResponseWriter.Set,
    ResponseWriter.new]

theorem gmsetagserver_one_body (ParseHTTPDate : String → Option Time) (obj : ObjTime)
    (objHist : ThsObjs) (req : Header) (w : ResponseWriter)
    (h : gmsetagserver.GetHandler ParseHTTPDate obj objHist .new req = some w) :
    w.body.length = 1 := by
  simp only [gmsetagserver.GetHandler] at h
  split at h
  · cases h
  · cases h; rfl
  · split_ifs at h <;> (cases h; rfl)

/-- C22, at the failing input: the client of gmsserver sends the HTTP-date of 6 s
while the store is stamped 5 s. The handler writes the empty patch of the UNCHANGED
response and, having no `return` there, goes on to the history lookup and writes a
second body (here the patch from the snapshot of 5.000000001 s, again empty): two
bodies are written for one request. -/
theorem gmsserver_writes_second_body :
    gmsserver.gmsTime exampleHTTPDate [(HeaderGetModifiedSince, "Thu, 01 Jan 1970 00:00:06 GMT")]
        = some ⟨6, 0⟩
      ∧ exampleStore.T.Before ⟨6, 0⟩ = true
      ∧ gmsserver.GetHandler exampleHTTPDate exampleStore exampleHistory .new
          [(HeaderGetModifiedSince, "Thu, 01 Jan 1970 00:00:06 GMT")]
        = ⟨[("Content-Type", "application/json-patch+json")], some 200,
            [("Content-Type", "application/json-patch+json")],
            [Body.patch [], Body.patch []]⟩
      ∧ (gmsserver.GetHandler exampleHTTPDate exampleStore exampleHistory .new
          [(HeaderGetModifiedSince, "Thu, 01 Jan 1970 00:00:06 GMT")]).body.length = 2 := by
  decide

/-! ## LatestETag on an arbitrary map -/

/-- When some entry is after the zero time, `LatestETag` reports `found` and returns an
entry of the map that no entry is after. -/
theorem LatestETag_of_exists_After_zero (iter : List (String × Time))
    (h : ∃ x ∈ iter, x.2.After Time.zero = true) :
    (LatestETag iter).2.2 = true
      ∧ ((LatestETag iter).1, (LatestETag iter).2.1) ∈ iter
      ∧ ∀ x ∈ iter, x.2.After (LatestETag iter).2.1 = false := by
  obtain ⟨_, hB, hC⟩ := LatestETag_loop_spec iter "" Time.zero false
  rcases hC with ⟨_, hall⟩ | ⟨hf, hmem, _⟩
  · obtain ⟨x, hx, hxa⟩ := h
    rw [hall x hx] at hxa
    cases hxa
  · exact ⟨hf, hmem, hB⟩

/-- C23, as the code has it: for every map, in whatever order the runtime yields its
entries, `LatestETag` reports `found` exactly when some entry has a time after the
zero time; it then returns an etag of the map with its time, and that time is not
before the time of any entry; otherwise it returns `("", zero time, false)`. For
every map that `ETagTimes` builds, all of whose times are after the zero time,
`found` is true exactly when the map is not empty. -/
theorem LatestETag_latest_after_zero (iter : List (String × Time)) :
    ((LatestETag iter).2.2 = true ↔ ∃ x ∈ iter, x.2.After Time.zero = true)
      ∧ ((LatestETag iter).2.2 = true →
          ((LatestETag iter).1, (LatestETag iter).2.1) ∈ iter
            ∧ ∀ x ∈ iter, (LatestETag iter).2.1.Before x.2 = false)
      ∧ ((LatestETag iter).2.2 = false → LatestETag iter = ("", Time.zero, false))
      ∧ (∀ candidates, iter.Perm (ETagTimes candidates) →
          ((LatestETag iter).2.2 = true ↔ iter ≠ [])) := by
  obtain ⟨_, hB, hC⟩ := LatestETag_loop_spec iter "" Time.zero false
  have hiff : (LatestETag iter).2.2 = true ↔ ∃ x ∈ iter, x.2.After Time.zero = true := by
    constructor
    · intro hf
      rcases hC with ⟨heq, _⟩ | ⟨_, hmem, hafter⟩
      · rw [LatestETag, heq] at hf; cases hf
      · exact ⟨_, hmem, hafter⟩
    · intro h
      exact (LatestETag_of_exists_After_zero iter h).1
  refine ⟨hiff, ?_, ?_, ?_⟩
  · intro hf
    obtain ⟨_, hmem, hmax⟩ := LatestETag_of_exists_After_zero iter (hiff.mp hf)
    refine ⟨hmem, fun x hx => ?_⟩
    rw [Time.Before_eq_After]
    exact hmax x hx
  · intro hf
    rcases hC with ⟨heq, _⟩ | ⟨hf', _, _⟩
    · exact heq
    · rw [LatestETag, hf'] at hf; cases hf
  · intro candidates hiter
    rw [hiff]
    constructor
    · rintro ⟨x, hx, _⟩ hnil
      rw [hnil] at hx
      cases hx
    · intro hne
      obtain ⟨x, hx⟩ := List.exists_mem_of_ne_nil iter hne
      obtain ⟨c, _, he⟩ := (mem_ETagTimes candidates x).mp (hiter.mem_iff.mp hx)
      exact ⟨x, hx, ParseETag_After_zero x.1 x.2 (ETagTimes.entry_valid c x he)⟩

/-- Witness of C23: the map `ETagTimes` builds from the candidate `"5"` is not empty and
`LatestETag` reports `found`. -/
theorem LatestETag_latest_after_zero_witness :
    (LatestETag (ETagTimes ["\"5\""])).2.2 = true ↔ ETagTimes ["\"5\""] ≠ [] :=
  (LatestETag_latest_after_zero (ETagTimes ["\"5\""])).2.2.2 ["\"5\""] (List.Perm.refl _)

/-- Counterexample to C23 as stated: the map has the one entry `"a"` with the zero time
`time.Time{}`. No time is after the start value of `latestTime`, so `LatestETag`
returns the empty string, which is no etag of the map, and `found = false` although
the map is not empty. -/
theorem LatestETag_misses_zero_time_entry :
    LatestETag [("a", Time.zero)] = ("", Time.zero, false)
      ∧ ([("a", Time.zero)] : List (String × Time)) ≠ []
      ∧ ((LatestETag [("a", Time.zero)]).1, (LatestETag [("a", Time.zero)]).2.1)
          ∉ ([("a", Time.zero)] : List (String × Time)) := by
  decide

/-! ## Patching from a stale base -/

/-- The result of applying to `m` the patch `CreatePatch a b` as the client decodes it:
each leaf where `a` and `b` differ takes the value of `b`, every other leaf keeps the
value of `m`. -/
theorem ApplyPatch_wire_stale (indef : Float64 → Int) (a m b : Obj) (wire : List JSONPatchOp)
    (hw : overJSON (CreatePatch a b) = some wire)
    (hb : ∀ l ∈ leaves, (l.2 b).natAbs ≤ 2 ^ 53) :
    ApplyPatch indef m wire =
      (⟨⟨⟨if a.FooA.BarA.BazA ≠ b.FooA.BarA.BazA then b.FooA.BarA.BazA else m.FooA.BarA.BazA,
           if a.FooA.BarA.BazB ≠ b.FooA.BarA.BazB then b.FooA.BarA.BazB else m.FooA.BarA.BazB⟩,
          ⟨if a.FooA.BarB.BazA ≠ b.FooA.BarB.BazA then b.FooA.BarB.BazA else m.FooA.BarB.BazA,
           if a.FooA.BarB.BazB ≠ b.FooA.BarB.BazB then b.FooA.BarB.BazB else m.FooA.BarB.BazB⟩⟩,
         ⟨⟨if a.FooB.BarA.BazA ≠ b.FooB.BarA.BazA then b.FooB.BarA.BazA else m.FooB.BarA.BazA,
           if a.FooB.BarA.BazB ≠ b.FooB.BarA.BazB then b.FooB.BarA.BazB else m.FooB.BarA.BazB⟩,
          ⟨if a.FooB.BarB.BazA ≠ b.FooB.BarB.BazA then b.FooB.BarB.BazA else m.FooB.BarB.BazA,
           if a.FooB.BarB.BazB ≠ b.FooB.BarB.BazB then b.FooB.BarB.BazB else m.FooB.BarB.BazB⟩⟩⟩,
        none) := by
  rw [overJSON_CreatePatch] at hw
  cases hw
  rcases a with ⟨⟨⟨a1, a2⟩, ⟨a3, a4⟩⟩, ⟨⟨a5, a6⟩, ⟨a7, a8⟩⟩⟩
  rcases m with ⟨⟨⟨m1, m2⟩, ⟨m3, m4⟩⟩, ⟨⟨m5, m6⟩, ⟨m7, m8⟩⟩⟩
  rcases b with ⟨⟨⟨b1, b2⟩, ⟨b3, b4⟩⟩, ⟨⟨b5, b6⟩, ⟨b7, b8⟩⟩⟩
  simp only [leaves, List.forall_mem_cons, List.not_mem_nil, false_imp_iff, implies_true,
    and_true] at hb
  obtain ⟨h1, h2, h3, h4, h5, h6, h7, h8⟩ := hb
  dsimp only
  rw [ApplyPatch_step indef _ _ _ _
      ⟨⟨⟨(if a1 ≠ b1 then b1 else m1), m2⟩, ⟨m3, m4⟩⟩,
      ⟨⟨m5, m6⟩, ⟨m7, m8⟩⟩⟩
    (fun hc => by rw [applyOp_FooA_BarA_BazA, int64OfFloat64_float64OfInt indef _ h1, if_pos hc])
    (fun hc => by rw [if_neg hc])]
  rw [ApplyPatch_step indef _ _ _ _
      ⟨⟨⟨(if a1 ≠ b1 then b1 else m1), (if a2 ≠ b2 then b2 else m2)⟩, ⟨m3, m4⟩⟩,
      ⟨⟨m5, m6⟩, ⟨m7, m8⟩⟩⟩
    (fun hc => by rw [applyOp_FooA_BarA_BazB, int64OfFloat64_float64OfInt indef _ h2, if_pos hc])
    (fun hc => by rw [if_neg hc])]
  rw [ApplyPatch_step indef _ _ _ _
      ⟨⟨⟨(if a1 ≠ b1 then b1 else m1), (if a2 ≠ b2 then b2 else m2)⟩, ⟨(if a3 ≠ b3 then b3 else m3), m4⟩⟩,
      ⟨⟨m5, m6⟩, ⟨m7, m8⟩⟩⟩
    (fun hc => by rw [applyOp_FooA_BarB_BazA, int64OfFloat64_float64OfInt indef _ h3, if_pos hc])
    (fun hc => by rw [if_neg hc])]
  rw [ApplyPatch_step indef _ _ _ _
      ⟨⟨⟨(if a1 ≠ b1 then b1 else m1), (if a2 ≠ b2 then b2 else m2)⟩, ⟨(if a3 ≠ b3 then b3 else m3), (if a4 ≠ b4 then b4 else m4)⟩⟩,
      ⟨⟨m5, m6⟩, ⟨m7, m8⟩⟩⟩
    (fun hc => by rw [applyOp_FooA_BarB_BazB, int64OfFloat64_float64OfInt indef _ h4, if_pos hc])
    (fun hc => by rw [if_neg hc])]
  rw [ApplyPatch_step indef _ _ _ _
      ⟨⟨⟨(if a1 ≠ b1 then b1 else m1), (if a2 ≠ b2 then b2 else m2)⟩, ⟨(if a3 ≠ b3 then b3 else m3), (if a4 ≠ b4 then b4 else m4)⟩⟩,
      ⟨⟨(if a5 ≠ b5 then b5 else m5), m6⟩, ⟨m7, m8⟩⟩⟩
    (fun hc => by rw [applyOp_FooB_BarA_BazA, int64OfFloat64_float64OfInt indef _ h5, if_pos hc])
    (fun hc => by rw [if_neg hc])]
  rw [ApplyPatch_step indef _ _ _ _
      ⟨⟨⟨(if a1 ≠ b1 then b1 else m1), (if a2 ≠ b2 then b2 else m2)⟩, ⟨(if a3 ≠ b3 then b3 else m3), (if a4 ≠ b4 then b4 else m4)⟩⟩,
      ⟨⟨(if a5 ≠ b5 then b5 else m5), (if a6 ≠ b6 then b6 else m6)⟩, ⟨m7, m8⟩⟩⟩
    (fun hc => by rw [applyOp_FooB_BarA_BazB, int64OfFloat64_float64OfInt indef _ h6, if_pos hc])
    (fun hc => by rw [if_neg hc])]
  rw [ApplyPatch_step indef _ _ _ _
      ⟨⟨⟨(if a1 ≠ b1 then b1 else m1), (if a2 ≠ b2 then b2 else m2)⟩, ⟨(if a3 ≠ b3 then b3 else m3), (if a4 ≠ b4 then b4 else m4)⟩⟩,
      ⟨⟨(if a5 ≠ b5 then b5 else m5), (if a6 ≠ b6 then b6 else m6)⟩, ⟨(if a7 ≠ b7 then b7 else m7), m8⟩⟩⟩
    (fun hc => by rw [applyOp_FooB_BarB_BazA, int64OfFloat64_float64OfInt indef _ h7, if_pos hc])
    (fun hc => by rw [if_neg hc])]
  rw [ApplyPatch_step indef _ _ _ _
      ⟨⟨⟨(if a1 ≠ b1 then b1 else m1), (if a2 ≠ b2 then b2 else m2)⟩, ⟨(if a3 ≠ b3 then b3 else m3), (if a4 ≠ b4 then b4 else m4)⟩⟩,
      ⟨⟨(if a5 ≠ b5 then b5 else m5), (if a6 ≠ b6 then b6 else m6)⟩, ⟨(if a7 ≠ b7 then b7 else m7), (if a8 ≠ b8 then b8 else m8)⟩⟩⟩
    (fun hc => by rw [applyOp_FooB_BarB_BazB, int64OfFloat64_float64OfInt indef _ h8, if_pos hc])
    (fun hc => by rw [if_neg hc])]
  rfl

theorem ite_eq_right_iff_stale (x y z : Int) :
    (if x ≠ y then y else z) = y ↔ (z ≠ y → x ≠ y) := by
  by_cases h : x = y
  · simp [h]
  · simp [h]

/-- C24: for all documents `a` (the baseline the server chose), `m` (the document the
client holds) and `b` (the current document) with every leaf of `b` of magnitude at
most `2 ^ 53`, applying to `m` the patch `CreatePatch a b` with its values carried as
decoded JSON numbers succeeds, and the result is `b` if and only if every leaf where
`m` differs from `b` is a leaf where `a` differs from `b`; in particular it is `b`
when `m = a`, and when `a ≤ m ≤ b` leaf by leaf. -/
theorem ApplyPatch_stale_base (indef : Float64 → Int) (a m b : Obj)
    (hb : ∀ l ∈ leaves, (l.2 b).natAbs ≤ 2 ^ 53) :
    ∃ wire r, overJSON (CreatePatch a b) = some wire
      ∧ ApplyPatch indef m wire = (r, none)
      ∧ (r = b ↔ ∀ l ∈ leaves, l.2 m ≠ l.2 b → l.2 a ≠ l.2 b)
      ∧ (m = a → r = b)
      ∧ ((∀ l ∈ leaves, l.2 a ≤ l.2 m ∧ l.2 m ≤ l.2 b) → r = b) := by
  refine ⟨_, _, overJSON_CreatePatch a b,
    ApplyPatch_wire_stale indef a m b _ (overJSON_CreatePatch a b) hb, ?_⟩
  have hiff :
      (⟨⟨⟨if a.FooA.BarA.BazA ≠ b.FooA.BarA.BazA then b.FooA.BarA.BazA else m.FooA.BarA.BazA,
           if a.FooA.BarA.BazB ≠ b.FooA.BarA.BazB then b.FooA.BarA.BazB else m.FooA.BarA.BazB⟩,
          ⟨if a.FooA.BarB.BazA ≠ b.FooA.BarB.BazA then b.FooA.BarB.BazA else m.FooA.BarB.BazA,
           if a.FooA.BarB.BazB ≠ b.FooA.BarB.BazB then b.FooA.BarB.BazB else m.FooA.BarB.BazB⟩⟩,
         ⟨⟨if a.FooB.BarA.BazA ≠ b.FooB.BarA.BazA then b.FooB.BarA.BazA else m.FooB.BarA.BazA,
           if a.FooB.BarA.BazB ≠ b.FooB.BarA.BazB then b.FooB.BarA.BazB else m.FooB.BarA.BazB⟩,
          ⟨if a.FooB.BarB.BazA ≠ b.FooB.BarB.BazA then b.FooB.BarB.BazA else m.FooB.BarB.BazA,
           if a.FooB.BarB.BazB ≠ b.FooB.BarB.BazB then b.FooB.BarB.BazB else m.FooB.BarB.BazB⟩⟩⟩
          : Obj) = b
        ↔ ∀ l ∈ leaves, l.2 m ≠ l.2 b → l.2 a ≠ l.2 b := by
    rcases a with ⟨⟨⟨a1, a2⟩, ⟨a3, a4⟩⟩, ⟨⟨a5, a6⟩, ⟨a7, a8⟩⟩⟩
    rcases m with ⟨⟨⟨m1, m2⟩, ⟨m3, m4⟩⟩, ⟨⟨m5, m6⟩, ⟨m7, m8⟩⟩⟩
    rcases b with ⟨⟨⟨b1, b2⟩, ⟨b3, b4⟩⟩, ⟨⟨b5, b6⟩, ⟨b7, b8⟩⟩⟩
    simp only [leaves, List.forall_mem_cons, List.not_mem_nil, false_imp_iff, implies_true,
      and_true, Obj.mk.injEq, Foo.mk.injEq, Bar.mk.injEq, ite_eq_right_iff_stale, and_assoc]
  refine ⟨hiff, ?_, ?_⟩
  · rintro rfl
    exact hiff.mpr (fun l _ h => h)
  · intro hmono
    refine hiff.mpr (fun l hl hne hab => hne ?_)
    have := hmono l hl
    omega

/-- Witness of C24: the baseline is the zero document, the client holds `Obj.one` and
the current document has 2 at that leaf. -/
theorem ApplyPatch_stale_base_witness :
    ∃ wire, overJSON (CreatePatch Obj.zero ⟨⟨⟨2, 0⟩, ⟨0, 0⟩⟩, ⟨⟨0, 0⟩, ⟨0, 0⟩⟩⟩) = some wire
      ∧ ApplyPatch amd64 Obj.one wire = (⟨⟨⟨2, 0⟩, ⟨0, 0⟩⟩, ⟨⟨0, 0⟩, ⟨0, 0⟩⟩⟩, none) := by
  obtain ⟨wire, r, hw, hr, _, _, hmono⟩ :=
    ApplyPatch_stale_base amd64 Obj.zero Obj.one ⟨⟨⟨2, 0⟩, ⟨0, 0⟩⟩, ⟨⟨0, 0⟩, ⟨0, 0⟩⟩⟩ (by decide)
  have hrb := hmono (by decide)
  subst hrb
  exact ⟨wire, hw, hr⟩

/-! ## Totality of Add -/

theorem Add_eq_none_iff (r : ThsObjs) (now : Time) (newO : Obj) :
    r.Add now newO = none ↔ r.max < 0 := by
  constructor
  · intro h
    by_contra hneg
    rw [Add_eq_take r now newO (by omega)] at h
    cases h
  · intro h
    unfold ThsObjs.Add
    have hlen : (((⟨now, newO⟩ : ObjTime) :: r.o).length : Int) > r.max := by
      have : (0 : Int) ≤ ((⟨now, newO⟩ : ObjTime) :: r.o).length := Int.ofNat_nonneg _
      omega
    simp only [hlen, if_true]
    rw [if_neg (by omega)]

/-- C25: `Add` is total on every ring created with `maxHistory ≥ 0`: the slice
expression `o.o[:o.max]` is in bounds after any sequence of calls, and with
`maxHistory = 0` the ring stays empty. On any ring state, `Add` panics exactly when
`max` is negative; a ring created with a negative `maxHistory` panics at its first
`Add`. -/
theorem Add_total (maxHistory : Int) (adds : List (Time × Obj)) (r : ThsObjs) (now : Time)
    (newO : Obj) :
    (0 ≤ maxHistory →
        ∃ r', (NewThsObjs maxHistory).AddAll adds = some r' ∧ r'.max = maxHistory
          ∧ ∃ r'', r'.Add now newO = some r''
          ∧ (maxHistory = 0 → r'.o = [] ∧ r''.o = []))
      ∧ (r.Add now newO = none ↔ r.max < 0)
      ∧ (maxHistory < 0 → (NewThsObjs maxHistory).AddAll ((now, newO) :: adds) = none) := by
  refine ⟨?_, Add_eq_none_iff r now newO, ?_⟩
  · intro h
    obtain ⟨c, rfl⟩ := Int.eq_ofNat_of_zero_le h
    have hall := AddAll_eq_take c adds [] (Nat.zero_le _)
    refine ⟨_, hall, rfl, _, Add_eq_take _ now newO h, ?_⟩
    intro hc
    have hc0 : c = 0 := by omega
    subst hc0
    simp
  · intro h
    have hadd : (NewThsObjs maxHistory).Add now newO = none :=
      (Add_eq_none_iff _ now newO).mpr h
    simp only [ThsObjs.AddAll, hadd]

/-- Witness of C25: with `maxHistory = 0` two calls of `Add` succeed and leave the ring
empty; with `maxHistory = -1` the first call panics. -/
theorem Add_total_witness :
    (NewThsObjs 0).AddAll [(⟨1, 0⟩, Obj.one), (⟨2, 0⟩, Obj.zero)] = some ⟨[], 0⟩
      ∧ (NewThsObjs (-1)).AddAll [(⟨1, 0⟩, Obj.one)] = none := by
  have h := Add_total 0 [(⟨1, 0⟩, Obj.one), (⟨2, 0⟩, Obj.zero)] (NewThsObjs 0) ⟨1, 0⟩ Obj.one
  have h' := Add_total (-1) [] (NewThsObjs 0) ⟨1, 0⟩ Obj.one
  obtain ⟨r', hr', hmax, _, _, hempty⟩ := h.1 (by decide)
  refine ⟨?_, h'.2.2 (by decide)⟩
  rw [hr']
  have ho := (hempty rfl).1
  cases r'
  simp only at hmax ho
  simp [hmax, ho]

end gms
